import Mathlib

/-!
Verification of the stdeb backend of py2deb
(`src/py2deb/backends/stdeb_backend.py`).

The source is a sequential build pipeline over an explicit process state.
We shallow-embed it as pure Lean functions over a `World` record that
carries the pieces of process state the module touches: a filesystem,
the process environment, the outcome oracles for external subprocesses
(`run`, `os.listdir`), the installed stdeb version string, and a trace
of which pipeline stages have been invoked.

File contents are modelled as lists of lines, each line understood to be
terminated by a single newline byte; `docBytes` recovers the byte stream
of a file from its lines.

External collaborators and repository code that is not under `src/`
(`py2deb.util.run`, `py2deb.util.patch_control_file`, the
`debian.deb822.Deb822` parser, `deb_pkg_tools.control.merge_control_fields`,
`pip_accel.deps.sanity_check_dependencies`,
`deb_pkg_tools.package.clean_package_tree`) are modelled from the spec;
their doc comments say so.
-/

namespace Py2deb

/-- A Python package descriptor, as used by the backend (spec §3). -/
structure Package where
  name : String
  debian_name : String
  directory : String
  debian_dependencies : List String

/-- The configuration object: an optional per-package shell script
(`config.has_option(name, 'script')` / `config.get(name, 'script')`) and
user field overrides keyed by source package name (spec §3, §6). -/
structure Config where
  script : String → Option String
  overrides : String → List (String × String)

/-- Pipeline stages, used to record which stage functions were invoked. -/
inductive Stage where
  | Debianize
  | ControlPatch
  | Script
  | DepCheck
  | TreeClean
  | Build
deriving DecidableEq

/-- Errors of the embedded program.  `BackendFailed` models
`py2deb.exceptions.BackendFailed`; `PyException` models a plain Python
`Exception`; `Collaborator` models an error propagated unchanged from an
external collaborator; `ioFailure` models an `IOError` from `open`. -/
inductive Err where
  | BackendFailed (msg : String)
  | PyException (msg : String)
  | Collaborator (msg : String)
  | ioFailure (path : String)
deriving DecidableEq

/-- A filesystem: a finite map from file path to file lines, plus the
set of existing directories. -/
structure FS where
  files : List (String × List String)
  dirs : List String

/-- `os.path.join` for one relative component on POSIX. -/
def joinPath (a b : String) : String := a ++ "/" ++ b

/-- `os.path.dirname` on POSIX (`posixpath.dirname`): everything up to
and including the last `/`, with trailing slashes stripped unless the
result is all slashes. -/
def dirname (p : String) : String :=
  match p.data.reverse.findIdx? (fun c => c == '/') with
  | none => ""
  | some j =>
    let head := p.data.take (p.data.length - j)
    if head.all (fun c => c == '/') then String.mk head
    else String.mk (head.reverse.dropWhile (fun c => c == '/')).reverse

/-- Is `t` a prefix of `s` (`str.startswith`)? -/
def startswith (s t : String) : Bool :=
  t.data.isPrefixOf s.data

/-- `os.path.isfile`. -/
def isfile (fs : FS) (p : String) : Bool :=
  (fs.files.lookup p).isSome

/-- Read a file's lines, `none` when the file does not exist. -/
def readFile (fs : FS) (p : String) : Option (List String) :=
  fs.files.lookup p

/-- Replace or insert the binding of `p` in an association list. -/
def setAssoc : List (String × List String) → String → List String → List (String × List String)
  | [], p, c => [(p, c)]
  | (q, d) :: rest, p, c =>
    if q == p then (q, c) :: rest else (q, d) :: setAssoc rest p c

/-- Write a file (`open(path, 'w')` followed by writes). -/
def writeFile (fs : FS) (p : String) (c : List String) : FS :=
  { fs with files := setAssoc fs.files p c }

/-- `shutil.rmtree d`: remove the directory `d` and everything below it. -/
def rmtree (fs : FS) (d : String) : FS :=
  { files := fs.files.filter (fun kv => !(startswith kv.1 (d ++ "/"))),
    dirs := fs.dirs.filter (fun q => !(q == d) && !(startswith q (d ++ "/"))) }

/-- Does directory `d` exist? -/
def dirExists (fs : FS) (d : String) : Bool :=
  fs.dirs.contains d

/-- Update the binding of `k` in an environment (`os.environ[k] = v`). -/
def setEnv : List (String × String) → String → String → List (String × String)
  | [], k, v => [(k, v)]
  | (k', v') :: rest, k, v =>
    if k' == k then (k', v) :: rest else (k', v') :: setEnv rest k v

/-- Look up an environment variable. -/
def getEnv (e : List (String × String)) (k : String) : Option String :=
  e.lookup k

/-- The process state the module reads and mutates.  `run` is the outcome
oracle for `py2deb.util.run` (modelled from the spec: a blocking
subprocess call returning whether the exit status was nonzero), keyed by
command line, working directory and the verbosity flag; `runEffect` is
the filesystem effect of that subprocess, applied whether or not its
exit status is nonzero.  `listdir` is the directory-listing oracle
(`os.listdir`, platform-defined order).  `strftime` is the
`time.strftime` oracle.  `depcheckFails` and `cleanFails` are outcome
oracles for the two external collaborators that the pipeline delegates
to without wrapping their errors, and `cleanEffect` is the tree
cleaner's filesystem effect. -/
structure World where
  fs : FS
  listdir : String → List String
  run : String → String → Bool → Bool
  runEffect : String → String → FS → FS
  environ : List (String × String)
  stdeb_version : String
  sysRoot : String
  strftime : String → String
  depcheckFails : Bool
  cleanFails : Bool
  cleanEffect : String → FS → FS
  trace : List Stage
  log : List String

/-! ## The control file format

Modelled from the spec (§4.1): the two-paragraph RFC822-like text format.
The actual parser in the source is the external `debian.deb822.Deb822`
class (`Deb822.iter_paragraphs` / `Deb822.dump`); the code of that
collaborator is not part of this repository, so the definitions below
follow the spec's description of ControlFileFormat. -/

/-- A whitespace-only line, which separates paragraphs
(`line.strip() == ''`). -/
def isBlank (l : String) : Bool :=
  l.data.all Char.isWhitespace

/-- One field of a paragraph: a name, the value on the field line, and
any continuation lines kept verbatim (spec §4.1: continuation lines are
appended "verbatim including the leading whitespace marker"). -/
structure Field where
  name : String
  value : String
  conts : List String
deriving DecidableEq

/-- A `ControlParagraph`: an ordered list of fields. -/
abbrev Paragraph := List Field

/-- Split a list of characters at the first `':'`. -/
def breakColon : List Char → Option (List Char × List Char)
  | [] => none
  | c :: cs =>
    if c == ':' then some ([], cs)
    else (breakColon cs).map (fun p => (c :: p.1, p.2))

/-- Modelled from the spec: parse one `Field: value` line.  The name is
everything before the first colon and must be nonempty without
whitespace; the value is the rest with leading spaces and tabs
stripped. -/
def parseFieldLine (l : String) : Option (String × String) :=
  match breakColon l.data with
  | none => none
  | some (name, rest) =>
    if name.isEmpty || name.any Char.isWhitespace then none
    else some (String.mk name, String.mk (rest.dropWhile (fun c => c == ' ' || c == '\t')))

/-- Does this line start with a space or tab (a continuation line)? -/
def startsSpaceTab (l : String) : Bool :=
  match l.data with
  | c :: _ => c == ' ' || c == '\t'
  | [] => false

/-- Case-insensitive field-name comparison (spec §3: field names are
treated case-insensitively for lookup). -/
def eqCI (a b : String) : Bool :=
  a.data.map Char.toLower == b.data.map Char.toLower

/-- Append a continuation line to the last open field. -/
def appendCont : List Field → String → List Field
  | [], _ => []
  | [f], l => [{ f with conts := f.conts ++ [l] }]
  | f :: g :: rest, l => f :: appendCont (g :: rest) l

/-- Add a parsed field; a duplicate of an already-present name
(case-insensitively) is ignored. -/
def addField (fields : List Field) (n v : String) : List Field :=
  if fields.any (fun f => eqCI f.name n) then fields else fields ++ [⟨n, v, []⟩]

/-- One step of the lenient paragraph parser. -/
def parseParaStep (fields : List Field) (l : String) : List Field :=
  if startsSpaceTab l then appendCont fields l
  else
    match parseFieldLine l with
    | some (n, v) => addField fields n v
    | none => fields

/-- Modelled from the spec: parse the lines of one paragraph into its
fields. -/
def parseParagraph (block : List String) : Paragraph :=
  block.foldl parseParaStep []

/-- One step of the blank-line splitter: accumulate the finished blocks
and the current block. -/
def splitStep (acc : List (List String) × List String) (l : String) :
    List (List String) × List String :=
  if isBlank l then
    match acc.2 with
    | [] => (acc.1, [])
    | _ => (acc.1 ++ [acc.2], [])
  else (acc.1, acc.2 ++ [l])

/-- Modelled from the spec: `Deb822.iter_paragraphs` at the granularity
of paragraphs, i.e. the maximal runs of non-blank lines. -/
def iter_paragraphs (lines : List String) : List (List String) :=
  let r := lines.foldl splitStep ([], [])
  if r.2.isEmpty then r.1 else r.1 ++ [r.2]

/-- Dump one field back to lines (`Deb822.dump` writes
`name: value` followed by the continuation lines). -/
def dumpField (f : Field) : List String :=
  (f.name ++ ": " ++ f.value) :: f.conts

/-- Dump a paragraph back to lines. -/
def dumpPar (p : Paragraph) : List String :=
  p.foldr (fun f acc => dumpField f ++ acc) []

/-- The byte stream of a file given as lines: every line is followed by
one newline byte. -/
def docBytes (ls : List String) : List Char :=
  ls.foldr (fun l acc => l.data ++ '\n' :: acc) []

/-! ## Field merging and user overrides -/

/-- Merge one override into a paragraph: replace the value of the field
with that name (case-insensitively) in place, else append a new field at
the end (spec §4.2). -/
def mergeField (p : Paragraph) (k v : String) : Paragraph :=
  if p.any (fun f => eqCI f.name k) then
    p.map (fun f => if eqCI f.name k then { f with value := v, conts := [] } else f)
  else p ++ [⟨k, v, []⟩]

/-- Modelled from the spec: `deb_pkg_tools.control.merge_control_fields`
as described by the FieldMerger contract (§4.2) — for each override key,
replace in place or append, never mutating the input. -/
def merge_control_fields (p : Paragraph) (overrides : List (String × String)) : Paragraph :=
  overrides.foldl (fun acc kv => mergeField acc kv.1 kv.2) p

/-- Modelled from the spec: `py2deb.util.patch_control_file` (repository
code not under `src/`).  Per §3, user overrides are loaded from the
configuration keyed by source package name and applied as a second
override pass over the paragraph.  The configuration is passed
explicitly here. -/
def patch_control_file (config : Config) (package : Package) (p : Paragraph) : Paragraph :=
  merge_control_fields p (config.overrides package.name)

/-- Case-insensitive field lookup in a paragraph. -/
def lookupCI (p : Paragraph) (k : String) : Option String :=
  (p.find? (fun f => eqCI f.name k)).map (fun f => f.value)

/-! ## `fnmatch.fnmatch`

The artifact scan filters filenames with `fnmatch.fnmatch(filename,
'<debian_name>_*.deb')`.  We embed the Python 2 `fnmatch.translate`
semantics on POSIX (where `os.path.normcase` is the identity): `*`
matches any sequence, `?` any single character, and `[...]` a character
class with ranges and `!` negation; a `[` without a closing `]` is a
literal.  The pattern is tokenized first and then matched. -/

/-- Split a character list at the first `']'`. -/
def findRBrack : List Char → Option (List Char × List Char)
  | [] => none
  | c :: cs =>
    if c == ']' then some ([], cs)
    else (findRBrack cs).map (fun p => (c :: p.1, p.2))

/-- After the optional `!`, a `]` in first position is a class member
rather than the terminator (`fnmatch.translate` skips it before
searching for the closing bracket). -/
def skipRB : List Char → Option (List Char × List Char)
  | [] => none
  | c :: more =>
    if c == ']' then (findRBrack more).map (fun p => (']' :: p.1, p.2))
    else findRBrack (c :: more)

/-- Scan a character class after an opening `[`: per
`fnmatch.translate`, a leading `!` negates, and a `]` directly after
`[` (or after `[!`) is a class member.  Returns the negation flag, the
members text and the remaining pattern, or `none` when no closing `]`
exists. -/
def splitClass (rest : List Char) : Option (Bool × List Char × List Char) :=
  match rest with
  | [] => none
  | c :: more =>
    if c == '!' then (skipRB more).map (fun p => (true, p.1, p.2))
    else (skipRB (c :: more)).map (fun p => (false, p.1, p.2))

/-- Does character `c` belong to the class with the given members text?
Ranges `a-b` have regular-expression semantics. -/
def matchClass (c : Char) : List Char → Bool
  | a :: '-' :: b :: rest => (a ≤ c && c ≤ b) || matchClass c rest
  | a :: rest => (a == c) || matchClass c rest
  | [] => false

/-- One token of a translated glob pattern. -/
inductive Tok where
  | star
  | any
  | lit (c : Char)
  | cls (neg : Bool) (members : List Char)
deriving DecidableEq

/-- Tokenize a glob pattern; `fuel` bounds the recursion and is
instantiated with the pattern length. -/
def tokenize : Nat → List Char → List Tok
  | _, [] => []
  | 0, _ => []
  | fuel + 1, '*' :: ps => Tok.star :: tokenize fuel ps
  | fuel + 1, '?' :: ps => Tok.any :: tokenize fuel ps
  | fuel + 1, '[' :: ps =>
    match splitClass ps with
    | some (neg, mem, rest) => Tok.cls neg mem :: tokenize fuel rest
    | none => Tok.lit '[' :: tokenize fuel ps
  | fuel + 1, c :: ps => Tok.lit c :: tokenize fuel ps

/-- Match a token list against a character list.  `star` tries every
suffix of the name. -/
def tokMatch : List Tok → List Char → Bool
  | [], n => n.isEmpty
  | Tok.star :: ts, n => n.tails.any (fun t => tokMatch ts t)
  | Tok.any :: ts, n =>
    match n with
    | [] => false
    | _ :: cs => tokMatch ts cs
  | Tok.lit c :: ts, n =>
    match n with
    | [] => false
    | d :: cs => c == d && tokMatch ts cs
  | Tok.cls neg mem :: ts, n =>
    match n with
    | [] => false
    | d :: cs => (if neg then !(matchClass d mem) else matchClass d mem) && tokMatch ts cs

/-- `fnmatch.fnmatch(filename, pat)` on POSIX. -/
def fnmatch (filename pat : String) : Bool :=
  tokMatch (tokenize pat.data.length pat.data) filename.data

/-- `str.endswith`: the reversed name starts with the reversed suffix. -/
def endswith (s t : String) : Bool :=
  s.data.reverse.take t.data.length == t.data.reverse

/-! ## The stage functions of `stdeb_backend.py`

Each stage is a function from `World` to `World × Option Err` (the
world after the stage's effects, and the exception it raised, if any);
`dpkg_buildpackage` additionally returns the archive path on success.
Every stage records its invocation in `World.trace` as its first step. -/

/-- The path of the control file of a package
(`os.path.join(package.directory, 'debian', 'control')`). -/
def controlPath (package : Package) : String :=
  joinPath (joinPath package.directory "debian") "control"

/-- The Debianizer command line built in `debianize` (source lines 40-43):
`<python> setup.py --command-packages=stdeb.command debianize`, plus
`--ignore-install-requires` exactly when the installed stdeb version
string equals `'0.6.0'`. -/
def debianizeCommand (sysRoot : String) (stdeb_version : String) : List String :=
  let python := joinPath (joinPath sysRoot "bin") "python"
  let command := [python, "setup.py", "--command-packages=stdeb.command", "debianize"]
  if stdeb_version == "0.6.0" then command ++ ["--ignore-install-requires"]
  else command

/-- `debianize(package, verbose)` (source lines 32-46). -/
def debianize (package : Package) (verbose : Bool) (w : World) : World × Option Err :=
  let w := { w with trace := w.trace ++ [Stage.Debianize] }
  let w :=
    if isfile w.fs (controlPath package) then
      { w with
        log := w.log ++
          [package.name ++ ": Package was previously Debianized: Overwriting existing files!"],
        fs := rmtree w.fs (joinPath package.directory "debian") }
    else w
  let command := String.intercalate " " (debianizeCommand w.sysRoot w.stdeb_version)
  let w := { w with fs := w.runEffect command package.directory w.fs }
  if w.run command package.directory verbose then
    (w, some (Err.BackendFailed ("Failed to debianize package! (" ++ package.name ++ ")")))
  else (w, none)

/-- The computed overrides of `patch_control` (source lines 66-68). -/
def computedOverrides (w : World) (package : Package) : List (String × String) :=
  [("Package", package.debian_name),
   ("Description", w.strftime "Packaged by py2deb on %B %e, %Y at %H:%M"),
   ("Depends", String.intercalate ", " package.debian_dependencies)]

/-- `patch_control(package, config)` (source lines 48-77): read the
control file, require exactly two paragraphs, merge the computed
overrides and then the user overrides into the second paragraph, and
write both paragraphs back separated by one blank line. -/
def patch_control (package : Package) (config : Config) (w : World) : World × Option Err :=
  let w := { w with trace := w.trace ++ [Stage.ControlPatch] }
  let control_file := controlPath package
  match readFile w.fs control_file with
  | none => (w, some (Err.ioFailure control_file))
  | some content =>
    let paragraphs := (iter_paragraphs content).map parseParagraph
    if paragraphs.length ≠ 2 then
      (w, some (Err.BackendFailed ("Unexpected control file format for " ++ package.name ++ "!")))
    else
      let p0 := paragraphs.getD 0 []
      let p1 := merge_control_fields (paragraphs.getD 1 []) (computedOverrides w package)
      let p1 := patch_control_file config package p1
      ({ w with fs := writeFile w.fs control_file (dumpPar p0 ++ "" :: dumpPar p1) }, none)

/-- `apply_script(package, config, verbose)` (source lines 79-92). -/
def apply_script (package : Package) (config : Config) (verbose : Bool) (w : World) :
    World × Option Err :=
  let w := { w with trace := w.trace ++ [Stage.Script] }
  match config.script package.name with
  | some command =>
    let w := { w with fs := w.runEffect command package.directory w.fs }
    if w.run command package.directory verbose then
      (w, some (Err.BackendFailed ("Failed to apply script to " ++ package.name ++ "!")))
    else (w, none)
  | none => (w, none)

/-- Modelled from the spec: `pip_accel.deps.sanity_check_dependencies`,
an external collaborator whose own error propagates unchanged (spec
§4.3 stage 4); its outcome comes from the `depcheckFails` oracle. -/
def sanity_check_dependencies (name : String) (auto_install : Bool) (w : World) :
    World × Option Err :=
  let w := { w with trace := w.trace ++ [Stage.DepCheck] }
  if w.depcheckFails then
    (w, some (Err.Collaborator ("sanity_check_dependencies failed for " ++ name ++
      (if auto_install then " (auto install)" else ""))))
  else (w, none)

/-- Modelled from the spec: `deb_pkg_tools.package.clean_package_tree`,
an external collaborator whose own error propagates unchanged (spec
§4.3 stage 5); its outcome comes from the `cleanFails` oracle. -/
def clean_package_tree (directory : String) (w : World) : World × Option Err :=
  let w := { w with trace := w.trace ++ [Stage.TreeClean] }
  let w := { w with fs := w.cleanEffect directory w.fs }
  if w.cleanFails then
    (w, some (Err.Collaborator ("clean_package_tree failed for " ++ directory)))
  else (w, none)

/-- The native builder command (source line 103). -/
def buildCommand : String := ". /etc/environment && dpkg-buildpackage -us -uc"

/-- The artifact scan loop (source lines 114-121): the first listed
filename that ends with `.deb` and matches `<debian_name>_*.deb`. -/
def findDeb (debian_name : String) (listing : List String) : Option String :=
  listing.find? (fun filename =>
    endswith filename ".deb" && fnmatch filename (debian_name ++ "_*.deb"))

/-- `dpkg_buildpackage(package, verbose)` (source lines 94-123): set the
environment variables, run the builder, then scan the parent directory
of the package directory for the generated archive.  (The lintian run
on the found archive has its exit status ignored and is not modelled.) -/
def dpkg_buildpackage (package : Package) (verbose : Bool) (w : World) :
    World × Except Err String :=
  let w := { w with trace := w.trace ++ [Stage.Build] }
  let command := buildCommand
  let w := if verbose then { w with environ := setEnv w.environ "DH_VERBOSE" "1" } else w
  let w :=
    if w.stdeb_version == "0.6.0+git" then
      { w with environ := setEnv w.environ "DH_OPTIONS" "--no-guessing-deps" }
    else w
  let w := { w with fs := w.runEffect command package.directory w.fs }
  if w.run command package.directory verbose then
    (w, Except.error (Err.PyException ("Failed to build package " ++ package.debian_name ++ "!")))
  else
    let parent_directory := dirname package.directory
    match findDeb package.debian_name (w.listdir parent_directory) with
    | some filename => (w, Except.ok (joinPath parent_directory filename))
    | none =>
      (w, Except.error (Err.BackendFailed ("Could not find generated archive of " ++
        package.name ++ "!")))

/-- The build context handed to `build` by the caller. -/
structure Context where
  package : Package
  config : Config
  verbose : Bool
  auto_install : Bool

/-- `build(context)` (source lines 24-30): the six stages in their fixed
order; a raised exception at any stage aborts the rest. -/
def build (ctx : Context) (w : World) : World × Except Err String :=
  match debianize ctx.package ctx.verbose w with
  | (w1, some e) => (w1, Except.error e)
  | (w1, none) =>
    match patch_control ctx.package ctx.config w1 with
    | (w2, some e) => (w2, Except.error e)
    | (w2, none) =>
      match apply_script ctx.package ctx.config ctx.verbose w2 with
      | (w3, some e) => (w3, Except.error e)
      | (w3, none) =>
        match sanity_check_dependencies ctx.package.name ctx.auto_install w3 with
        | (w4, some e) => (w4, Except.error e)
        | (w4, none) =>
          match clean_package_tree ctx.package.directory w4 with
          | (w5, some e) => (w5, Except.error e)
          | (w5, none) => dpkg_buildpackage ctx.package ctx.verbose w5

/-- The fixed stage order of the pipeline. -/
def stageOrder : List Stage :=
  [Stage.Debianize, Stage.ControlPatch, Stage.Script, Stage.DepCheck,
   Stage.TreeClean, Stage.Build]

/-! ## Well-formed control documents (spec §4.1)

A well-formed two-paragraph document: two paragraphs separated by
exactly one empty line, no other blank lines, each paragraph starting
with a strict `Field: value` line, every line either a strict field
line or a continuation line, and field names pairwise distinct
(case-insensitively).  A strict field line is `name ++ ": " ++ value`
with a nonempty whitespace-free name and a value that does not start
with further whitespace, so that parsing and dumping reproduce it
exactly. -/

/-- The text after the colon of a strict field line: exactly one space,
then a value that does not start with more whitespace. -/
def valueOk : List Char → Bool
  | [] => false
  | r :: v =>
    if r == ' ' then
      match v with
      | [] => true
      | c :: _ => !(c == ' ' || c == '\t')
    else false

/-- A line that parses and dumps back to itself: `name: value` with one
space after the colon. -/
def strictFieldLine (l : String) : Bool :=
  match breakColon l.data with
  | none => false
  | some (name, rest) =>
    !name.isEmpty && name.all (fun c => !c.isWhitespace) && valueOk rest

/-- A continuation line: starts with space or tab but is not blank. -/
def contLine (l : String) : Bool :=
  startsSpaceTab l && !(isBlank l)

/-- The names of the field lines of a block. -/
def fieldNames (block : List String) : List String :=
  block.filterMap (fun l =>
    if startsSpaceTab l then none else (parseFieldLine l).map (fun p => p.1))

/-- Pairwise case-insensitive distinctness. -/
def namesDistinctCI : List String → Bool
  | [] => true
  | n :: ns => ns.all (fun m => !(eqCI n m)) && namesDistinctCI ns

/-- Every line of the block is a strict field line or a continuation. -/
def blockLinesOk : List String → Bool
  | [] => true
  | l :: ls => (strictFieldLine l || contLine l) && blockLinesOk ls

/-- A well-formed paragraph block. -/
def blockOk (b : List String) : Bool :=
  match b with
  | [] => false
  | l :: _ => strictFieldLine l && blockLinesOk b && namesDistinctCI (fieldNames b)

/-- Split a document at its first blank line, also returning that line. -/
def breakAtBlank : List String → Option (List String × String × List String)
  | [] => none
  | l :: ls =>
    if isBlank l then some ([], l, ls)
    else (breakAtBlank ls).map (fun p => (l :: p.1, p.2.1, p.2.2))

/-- A well-formed two-paragraph control document (spec §4.1, §3). -/
def wellFormed (x : List String) : Bool :=
  match breakAtBlank x with
  | none => false
  | some (b0, sep, b1) =>
    sep == "" && blockOk b0 && !b1.isEmpty &&
    b1.all (fun l => !(isBlank l)) && blockOk b1

/-! ## Concrete fixtures used by witnesses and counterexamples -/

/-- A concrete package. -/
def pkg0 : Package :=
  { name := "foo", debian_name := "pydeb-foo", directory := "/tmp/foo",
    debian_dependencies := ["python-a", "python-b"] }

/-- A configuration with no script and no overrides. -/
def config0 : Config := { script := fun _ => none, overrides := fun _ => [] }

/-- A concrete well-formed control file. -/
def content0 : List String :=
  ["Source: foo", "Maintainer: Foo Bar", "", "Package: foo", "Depends: x"]

/-- A control file with three paragraphs. -/
def content3 : List String :=
  ["Source: foo", "", "Package: foo", "", "Package: foo-extra"]

/-- A base world: the control file of `pkg0` exists with `content0`, the
parent listing holds one matching archive, every subprocess succeeds
(and the Debianizer subprocess writes the control file), and the
collaborators succeed. -/
def w0 : World :=
  { fs := { files := [("/tmp/foo/debian/control", content0)],
            dirs := ["/tmp/foo", "/tmp/foo/debian"] },
    listdir := fun _ => ["foo-1.0.tar.gz", "pydeb-foo_1.0-1_all.deb"],
    run := fun _ _ _ => false,
    runEffect := fun cmd _ fs =>
      if cmd == String.intercalate " " (debianizeCommand "/usr" "0.6.0") then
        writeFile fs (controlPath pkg0) content0
      else fs,
    environ := [],
    stdeb_version := "0.6.0",
    sysRoot := "/usr",
    strftime := fun _ => "Packaged by py2deb on January 1, 2014 at 00:00",
    depcheckFails := false,
    cleanFails := false,
    cleanEffect := fun _ fs => fs,
    trace := [],
    log := [] }

/-! ## Helper lemmas -/

/-- Looking up the key just set. -/
lemma getEnv_setEnv_same (e : List (String × String)) (k v : String) :
    getEnv (setEnv e k v) k = some v := by
  induction e with
  | nil => simp [setEnv, getEnv, List.lookup]
  | cons kv rest ih =>
    obtain ⟨k', v'⟩ := kv
    by_cases h : k' = k
    · subst h; simp [setEnv, getEnv, List.lookup]
    · have hb : (k' == k) = false := beq_eq_false_iff_ne.mpr h
      have hb' : (k == k') = false := beq_eq_false_iff_ne.mpr (Ne.symm h)
      simp only [setEnv, hb, if_false, getEnv, List.lookup, hb'] at ih ⊢
      exact ih

/-- Looking up a different key after a set. -/
lemma getEnv_setEnv_other (e : List (String × String)) (k v k' : String) (h : k' ≠ k) :
    getEnv (setEnv e k v) k' = getEnv e k' := by
  induction e with
  | nil =>
    have hb : (k' == k) = false := beq_eq_false_iff_ne.mpr h
    simp [setEnv, getEnv, List.lookup, hb]
  | cons kv rest ih =>
    obtain ⟨a, b⟩ := kv
    by_cases ha : a = k
    · subst ha
      have hb : (k' == a) = false := beq_eq_false_iff_ne.mpr h
      simp [setEnv, getEnv, List.lookup, hb]
    · have hb : (a == k) = false := beq_eq_false_iff_ne.mpr ha
      simp only [setEnv, hb, if_false, getEnv, List.lookup] at ih ⊢
      cases hk : (k' == a) <;> simp [ih]

/-- The environment of the world produced by `dpkg_buildpackage`:
`DH_VERBOSE` is set exactly when verbose, `DH_OPTIONS` exactly when the
stdeb version equals `'0.6.0+git'`. -/
lemma dpkg_buildpackage_environ (package : Package) (verbose : Bool) (w : World) :
    (dpkg_buildpackage package verbose w).1.environ =
      (if w.stdeb_version == "0.6.0+git" then
        setEnv (if verbose then setEnv w.environ "DH_VERBOSE" "1" else w.environ)
          "DH_OPTIONS" "--no-guessing-deps"
       else (if verbose then setEnv w.environ "DH_VERBOSE" "1" else w.environ)) := by
  unfold dpkg_buildpackage
  cases verbose <;> cases h : w.stdeb_version == "0.6.0+git" <;>
    simp only [h, if_true, if_false, Bool.false_eq_true, ite_false, ite_true] <;>
    split <;> (try split) <;> rfl

/-! ## C4: the `--ignore-install-requires` compatibility flag -/

/-- The python interpreter path can never be the compatibility flag:
it always ends in `/python`. -/
lemma python_ne_flag (r : String) :
    joinPath (joinPath r "bin") "python" ≠ "--ignore-install-requires" := by
  intro h
  have hd := congrArg String.data h
  simp only [joinPath, String.data_append] at hd
  have h2 := congrArg (fun l : List Char => l.reverse.take 6) hd
  simp only [List.reverse_append] at h2
  rw [List.take_left' (by decide : ("python" : String).data.reverse.length = 6)] at h2
  exact absurd h2 (by decide)

/-- C4: the Debianizer command line contains `--ignore-install-requires`
if and only if the installed stdeb version string equals `'0.6.0'`,
decided by exact string equality. -/
theorem c4_version_flag (r v : String) :
    "--ignore-install-requires" ∈ debianizeCommand r v ↔ v = "0.6.0" := by
  unfold debianizeCommand
  split
  case isTrue h =>
    simp only [List.mem_append, List.mem_singleton]
    exact ⟨fun _ => beq_iff_eq.mp h, fun _ => by simp⟩
  case isFalse h =>
    constructor
    · intro hm
      simp only [List.mem_cons, List.not_mem_nil, or_false] at hm
      rcases hm with h1 | h2 | h3 | h4
      · exact absurd h1.symm (python_ne_flag r)
      · exact absurd h2 (by decide)
      · exact absurd h3 (by decide)
      · exact absurd h4 (by decide)
    · intro hv
      exact absurd (beq_iff_eq.mpr hv) (by simp [h])

/-! ## C8: the environment variables of the native build stage -/

/-- C8 counterexample: an invocation of the native build stage with the
verbosity flag off and the old stdeb version sets neither `DH_VERBOSE`
nor `DH_OPTIONS` — they are not set unconditionally. -/
theorem c8_counterexample :
    getEnv (dpkg_buildpackage pkg0 false w0).1.environ "DH_VERBOSE" = none ∧
    getEnv (dpkg_buildpackage pkg0 false w0).1.environ "DH_OPTIONS" = none :=
  ⟨rfl, rfl⟩

/-- C8 (amended): during the native-build stage, `DH_VERBOSE` is set
(to `"1"`) in the process-wide environment exactly when the verbosity
flag is on, and `DH_OPTIONS` (to `--no-guessing-deps`) exactly when the
detected stdeb version equals `'0.6.0+git'`; they persist in the
resulting process state (set before the builder runs and never unset or
restored, on success and failure alike), and all other environment
variables are untouched. -/
theorem c8_amended (package : Package) (verbose : Bool) (w : World) :
    (getEnv (dpkg_buildpackage package verbose w).1.environ "DH_VERBOSE"
      = (if verbose then some "1" else getEnv w.environ "DH_VERBOSE")) ∧
    (getEnv (dpkg_buildpackage package verbose w).1.environ "DH_OPTIONS"
      = (if w.stdeb_version == "0.6.0+git" then some "--no-guessing-deps"
         else getEnv w.environ "DH_OPTIONS")) ∧
    (∀ k, k ≠ "DH_VERBOSE" → k ≠ "DH_OPTIONS" →
      getEnv (dpkg_buildpackage package verbose w).1.environ k = getEnv w.environ k) := by
  have hvo : ∀ e, getEnv (setEnv e "DH_OPTIONS" "--no-guessing-deps") "DH_VERBOSE"
      = getEnv e "DH_VERBOSE" := fun e => getEnv_setEnv_other e _ _ _ (by decide)
  have hov : ∀ e, getEnv (setEnv e "DH_VERBOSE" "1") "DH_OPTIONS"
      = getEnv e "DH_OPTIONS" := fun e => getEnv_setEnv_other e _ _ _ (by decide)
  rw [dpkg_buildpackage_environ]
  refine ⟨?_, ?_, ?_⟩
  · cases verbose <;> cases h : w.stdeb_version == "0.6.0+git" <;>
      simp [h, getEnv_setEnv_same, hvo]
  · cases verbose <;> cases h : w.stdeb_version == "0.6.0+git" <;>
      simp [h, getEnv_setEnv_same, hov]
  · intro k h1 h2
    cases verbose <;> cases h : w.stdeb_version == "0.6.0+git" <;>
      simp only [h, if_true, if_false, Bool.false_eq_true, ite_true, ite_false] <;>
      rw [(by rfl : getEnv w.environ k = getEnv w.environ k)] <;>
      first
        | rfl
        | rw [getEnv_setEnv_other _ "DH_OPTIONS" "--no-guessing-deps" k h2,
              getEnv_setEnv_other _ "DH_VERBOSE" "1" k h1]
        | rw [getEnv_setEnv_other _ "DH_OPTIONS" "--no-guessing-deps" k h2]
        | rw [getEnv_setEnv_other _ "DH_VERBOSE" "1" k h1]

/-! ## C3: removal of a pre-existing `debian/` directory -/

/-- A world whose package directory contains a `debian/` subdirectory
but no `debian/control` file, and whose Debianizer has no filesystem
effect. -/
def wNoCtl : World :=
  { w0 with fs := { files := [], dirs := ["/tmp/foo", "/tmp/foo/debian"] },
            runEffect := fun _ _ fs => fs }

/-- C3 counterexample: a pre-existing `debian/` subdirectory without a
`debian/control` file is not removed by the Debianize stage, and no
warning is surfaced — the stage keys on the control file, not on the
directory. -/
theorem c3_counterexample :
    dirExists wNoCtl.fs (joinPath pkg0.directory "debian") = true ∧
    dirExists (debianize pkg0 false wNoCtl).1.fs (joinPath pkg0.directory "debian") = true ∧
    (debianize pkg0 false wNoCtl).1.log = [] :=
  ⟨rfl, rfl, rfl⟩

/-- C3 (amended): the destructive cleanup is keyed on the control file.
For every package whose directory contains `debian/control`, the
Debianize stage removes the whole `debian/` subdirectory and surfaces
the overwrite warning before the external Debianizer runs (the
Debianizer's filesystem effect applies to the already-cleaned tree);
when `debian/control` is absent nothing is removed and no warning is
logged, even if a `debian/` directory exists. -/
theorem c3_amended (package : Package) (verbose : Bool) (w : World) :
    (isfile w.fs (controlPath package) = true →
      (debianize package verbose w).1.fs =
        w.runEffect (String.intercalate " " (debianizeCommand w.sysRoot w.stdeb_version))
          package.directory (rmtree w.fs (joinPath package.directory "debian")) ∧
      (debianize package verbose w).1.log =
        w.log ++ [package.name ++ ": Package was previously Debianized: Overwriting existing files!"]) ∧
    (isfile w.fs (controlPath package) = false →
      (debianize package verbose w).1.fs =
        w.runEffect (String.intercalate " " (debianizeCommand w.sysRoot w.stdeb_version))
          package.directory w.fs ∧
      (debianize package verbose w).1.log = w.log) := by
  constructor
  · intro h
    unfold debianize
    simp only [h, if_true]
    split <;> exact ⟨rfl, rfl⟩
  · intro h
    unfold debianize
    simp only [h, Bool.false_eq_true, if_false]
    split <;> exact ⟨rfl, rfl⟩

/-- C3 witness: the amended theorem applied to a world where
`debian/control` exists. -/
theorem c3_witness :
    isfile w0.fs (controlPath pkg0) = true ∧
    ((debianize pkg0 false w0).1.fs =
      w0.runEffect (String.intercalate " " (debianizeCommand w0.sysRoot w0.stdeb_version))
        pkg0.directory (rmtree w0.fs (joinPath pkg0.directory "debian")) ∧
    (debianize pkg0 false w0).1.log =
      w0.log ++ [pkg0.name ++ ": Package was previously Debianized: Overwriting existing files!"]) :=
  ⟨rfl, (c3_amended pkg0 false w0).1 rfl⟩

/-! ## C2 and C10: the format check of the control-file patch stage -/

/-- The error branch of the format check: with a paragraph count other
than two, `patch_control` raises `BackendFailed` and only the trace has
changed. -/
lemma patch_control_format_error (package : Package) (config : Config) (w : World)
    (content : List String)
    (hread : readFile w.fs (controlPath package) = some content)
    (hn : (iter_paragraphs content).length ≠ 2) :
    patch_control package config w =
      ({ w with trace := w.trace ++ [Stage.ControlPatch] },
       some (Err.BackendFailed ("Unexpected control file format for " ++
         package.name ++ "!"))) := by
  have hread' : readFile ({ w with trace := w.trace ++ [Stage.ControlPatch] } : World).fs
      (controlPath package) = some content := hread
  have hn' : ((iter_paragraphs content).map parseParagraph).length ≠ 2 := by
    rwa [List.length_map]
  simp only [patch_control, hread']
  rw [if_pos hn']

/-- The success branch of the format check: with exactly two paragraphs
`patch_control` completes without error. -/
lemma patch_control_format_ok (package : Package) (config : Config) (w : World)
    (content : List String)
    (hread : readFile w.fs (controlPath package) = some content)
    (h2 : (iter_paragraphs content).length = 2) :
    ∃ w', patch_control package config w = (w', none) := by
  have hread' : readFile ({ w with trace := w.trace ++ [Stage.ControlPatch] } : World).fs
      (controlPath package) = some content := hread
  have h2' : ¬(((iter_paragraphs content).map parseParagraph).length ≠ 2) := by
    rw [List.length_map]; omega
  simp only [patch_control, hread']
  rw [if_neg h2']
  exact ⟨_, rfl⟩

/-- C2: the control-file patch stage fails with `BackendFailed` exactly
when the parse of the control file yields a number of paragraphs other
than two; with exactly two paragraphs it proceeds past the format check
and completes without error. -/
theorem c2_format_check (package : Package) (config : Config) (w : World)
    (content : List String)
    (hread : readFile w.fs (controlPath package) = some content) :
    ((iter_paragraphs content).length ≠ 2 →
      patch_control package config w =
        ({ w with trace := w.trace ++ [Stage.ControlPatch] },
         some (Err.BackendFailed ("Unexpected control file format for " ++ package.name ++ "!")))) ∧
    ((iter_paragraphs content).length = 2 →
      ∃ w', patch_control package config w = (w', none)) :=
  ⟨patch_control_format_error package config w content hread,
   patch_control_format_ok package config w content hread⟩

/-- C2 witness: a three-paragraph control file makes the patch stage
fail with `BackendFailed`, and the two-paragraph `content0` passes. -/
theorem c2_witness :
    readFile w0.fs (controlPath pkg0) = some content0 ∧
    ((iter_paragraphs content0).length ≠ 2 →
      patch_control pkg0 config0 w0 =
        ({ w0 with trace := w0.trace ++ [Stage.ControlPatch] },
         some (Err.BackendFailed ("Unexpected control file format for " ++ pkg0.name ++ "!")))) ∧
    ((iter_paragraphs content0).length = 2 →
      ∃ w', patch_control pkg0 config0 w0 = (w', none)) :=
  ⟨rfl, (c2_format_check pkg0 config0 w0 content0 rfl).1, (c2_format_check pkg0 config0 w0 content0 rfl).2⟩

/-- C10: when the format check fails, the whole filesystem — in
particular the control file — is unchanged: the error is raised before
the file is opened for writing. -/
theorem c10_no_write_on_format_error (package : Package) (config : Config) (w : World)
    (content : List String)
    (hread : readFile w.fs (controlPath package) = some content)
    (hn : (iter_paragraphs content).length ≠ 2) :
    (patch_control package config w).1.fs = w.fs ∧
    readFile (patch_control package config w).1.fs (controlPath package) = some content ∧
    (patch_control package config w).2 =
      some (Err.BackendFailed ("Unexpected control file format for " ++ package.name ++ "!")) := by
  have h := patch_control_format_error package config w content hread hn
  rw [h]
  exact ⟨rfl, hread, rfl⟩

/-- A world holding a three-paragraph control file. -/
def w3 : World :=
  { w0 with fs := { files := [("/tmp/foo/debian/control", content3)],
                    dirs := ["/tmp/foo", "/tmp/foo/debian"] } }

/-- C10 witness: the atomicity theorem applied to a concrete world with
a three-paragraph control file. -/
theorem c10_witness :
    readFile w3.fs (controlPath pkg0) = some content3 ∧
    (iter_paragraphs content3).length ≠ 2 ∧
    ((patch_control pkg0 config0 w3).1.fs = w3.fs ∧
     readFile (patch_control pkg0 config0 w3).1.fs (controlPath pkg0) = some content3 ∧
     (patch_control pkg0 config0 w3).2 =
       some (Err.BackendFailed ("Unexpected control file format for " ++ pkg0.name ++ "!"))) :=
  ⟨rfl, by decide, c10_no_write_on_format_error pkg0 config0 w3 content3 rfl (by decide)⟩

/-! ## C6: the native-build failure is a distinct, unclassified error -/

/-- C6: a nonzero exit of the native builder raises a plain Python
`Exception`, a different error kind from the `BackendFailed` errors of
the debianize, script and artifact-scan stages. -/
theorem c6_build_failure_error (package : Package) (verbose : Bool) (w : World)
    (hrun : w.run buildCommand package.directory verbose = true) :
    (dpkg_buildpackage package verbose w).2 =
      Except.error (Err.PyException ("Failed to build package " ++ package.debian_name ++ "!")) ∧
    (∀ m, Err.PyException ("Failed to build package " ++ package.debian_name ++ "!")
        ≠ Err.BackendFailed m) ∧
    (∀ p v w' e, (debianize p v w').2 = some e → ∃ m, e = Err.BackendFailed m) ∧
    (∀ p c v w' e, (apply_script p c v w').2 = some e → ∃ m, e = Err.BackendFailed m) ∧
    (∀ (p : Package) (v : Bool) (w' : World),
      w'.run buildCommand p.directory v = false →
      ∀ e, (dpkg_buildpackage p v w').2 = Except.error e → ∃ m, e = Err.BackendFailed m) := by
  refine ⟨?_, ?_, ?_, ?_, ?_⟩
  · cases verbose <;> cases hs : w.stdeb_version == "0.6.0+git" <;>
      simp only [dpkg_buildpackage, hs, if_true, if_false, Bool.false_eq_true,
        ite_true, ite_false] <;>
      rw [hrun] <;> rfl
  · intro m hm
    exact Err.noConfusion hm
  · intro p v w' e he
    unfold debianize at he
    dsimp only [] at he
    split at he
    · split at he
      · exact ⟨_, (Option.some.inj he).symm⟩
      · exact Option.noConfusion he
    · split at he
      · exact ⟨_, (Option.some.inj he).symm⟩
      · exact Option.noConfusion he
  · intro p c v w' e he
    unfold apply_script at he
    dsimp only [] at he
    split at he
    · split at he
      · exact ⟨_, (Option.some.inj he).symm⟩
      · exact Option.noConfusion he
    · exact Option.noConfusion he
  · intro p v w' hr e he
    cases v <;> cases hs : w'.stdeb_version == "0.6.0+git" <;>
      simp only [dpkg_buildpackage, hs, if_true, if_false, Bool.false_eq_true,
        ite_true, ite_false] at he <;>
      rw [hr] at he <;>
      simp only [Bool.false_eq_true, if_false, ite_false] at he <;>
      split at he <;>
      first
        | exact Except.noConfusion he
        | exact ⟨_, (Except.error.inj he).symm⟩

/-- A world whose native-builder invocation exits nonzero. -/
def wRunFail : World := { w0 with run := fun _ _ _ => true }

/-- C6 witness: the theorem applied to a world whose builder fails. -/
theorem c6_witness :
    wRunFail.run buildCommand pkg0.directory false = true ∧
    ((dpkg_buildpackage pkg0 false wRunFail).2 =
      Except.error (Err.PyException ("Failed to build package " ++ pkg0.debian_name ++ "!")) ∧
    (∀ m, Err.PyException ("Failed to build package " ++ pkg0.debian_name ++ "!")
        ≠ Err.BackendFailed m)) :=
  ⟨rfl, ((c6_build_failure_error pkg0 false wRunFail rfl).1),
    ((c6_build_failure_error pkg0 false wRunFail rfl).2.1)⟩

/-! ## C1: fixed stage order and short-circuit on first failure -/

/-- `debianize` records exactly its own invocation. -/
lemma debianize_trace (package : Package) (verbose : Bool) (w : World) :
    (debianize package verbose w).1.trace = w.trace ++ [Stage.Debianize] := by
  unfold debianize
  dsimp only []
  split <;> split <;> rfl

/-- `patch_control` records exactly its own invocation. -/
lemma patch_control_trace (package : Package) (config : Config) (w : World) :
    (patch_control package config w).1.trace = w.trace ++ [Stage.ControlPatch] := by
  unfold patch_control
  dsimp only []
  split
  · rfl
  · split <;> rfl

/-- `apply_script` records exactly its own invocation. -/
lemma apply_script_trace (package : Package) (config : Config) (verbose : Bool) (w : World) :
    (apply_script package config verbose w).1.trace = w.trace ++ [Stage.Script] := by
  unfold apply_script
  dsimp only []
  split
  · split <;> rfl
  · rfl

/-- `sanity_check_dependencies` records exactly its own invocation. -/
lemma sanity_check_trace (name : String) (auto_install : Bool) (w : World) :
    (sanity_check_dependencies name auto_install w).1.trace = w.trace ++ [Stage.DepCheck] := by
  unfold sanity_check_dependencies
  dsimp only []
  split <;> rfl

/-- `clean_package_tree` records exactly its own invocation. -/
lemma clean_package_tree_trace (directory : String) (w : World) :
    (clean_package_tree directory w).1.trace = w.trace ++ [Stage.TreeClean] := by
  unfold clean_package_tree
  dsimp only []
  split <;> rfl

/-- `dpkg_buildpackage` records exactly its own invocation. -/
lemma dpkg_buildpackage_trace (package : Package) (verbose : Bool) (w : World) :
    (dpkg_buildpackage package verbose w).1.trace = w.trace ++ [Stage.Build] := by
  unfold dpkg_buildpackage
  dsimp only []
  split <;> split <;> split <;> (try split) <;> rfl

/-- One pipeline stage as invoked by `build`, as a function from world
to world and optional raised exception (for the native build the
returned archive path is dropped, keeping only whether it raised). -/
def runStage (ctx : Context) (s : Stage) (w : World) : World × Option Err :=
  match s with
  | Stage.Debianize => debianize ctx.package ctx.verbose w
  | Stage.ControlPatch => patch_control ctx.package ctx.config w
  | Stage.Script => apply_script ctx.package ctx.config ctx.verbose w
  | Stage.DepCheck => sanity_check_dependencies ctx.package.name ctx.auto_install w
  | Stage.TreeClean => clean_package_tree ctx.package.directory w
  | Stage.Build =>
    ((dpkg_buildpackage ctx.package ctx.verbose w).1,
     match (dpkg_buildpackage ctx.package ctx.verbose w).2 with
     | Except.ok _ => none
     | Except.error e => some e)

/-- Run a list of stages in order; `some w'` means every one of them
completed without raising. -/
def runLeading (ctx : Context) : List Stage → World → Option World
  | [], w => some w
  | s :: ss, w =>
    match runStage ctx s w with
    | (w', none) => runLeading ctx ss w'
    | (_, some _) => none

/-- C1: starting from an empty trace, the pipeline invokes a prefix of
the fixed stage order `debianize, patch_control, apply_script,
sanity_check_dependencies, clean_package_tree, dpkg_buildpackage`; on
success all six stages ran; whenever fewer than six ran the result is
an error; and on an error the raised exception came from the last
invoked stage while every stage before it completed without raising —
so the first failure aborts the pipeline and no later stage runs (the
trace is exactly the stages up to and including the failing one). -/
theorem c1_pipeline (ctx : Context) (w : World) (h : w.trace = []) :
    ∃ k, 1 ≤ k ∧ k ≤ 6 ∧ (build ctx w).1.trace = stageOrder.take k ∧
      (∀ p, (build ctx w).2 = Except.ok p → k = 6) ∧
      (k < 6 → ∃ e, (build ctx w).2 = Except.error e) ∧
      (∀ e, (build ctx w).2 = Except.error e →
        ∃ w', runLeading ctx (stageOrder.take (k - 1)) w = some w' ∧
          runStage ctx (stageOrder.getD (k - 1) Stage.Build) w' =
            ((build ctx w).1, some e)) := by
  cases h1 : debianize ctx.package ctx.verbose w with
  | mk w1 o1 =>
  have ht1 : w1.trace = [Stage.Debianize] := by
    have := debianize_trace ctx.package ctx.verbose w
    rw [h1, h] at this
    simpa using this
  cases o1 with
  | some e =>
    have hb : build ctx w = (w1, Except.error e) := by
      simp only [build, h1]
    refine ⟨1, by omega, by omega, ?_, ?_, ?_, ?_⟩
    · rw [hb]; exact ht1
    · intro p hp; rw [hb] at hp; exact Except.noConfusion hp
    · intro _; exact ⟨e, by rw [hb]⟩
    · intro e' he'
      rw [hb] at he'
      have he : e' = e := (Except.error.inj he').symm
      subst he
      refine ⟨w, rfl, ?_⟩
      show runStage ctx Stage.Debianize w = ((build ctx w).1, some e')
      rw [hb]
      simp only [runStage]
      rw [h1]
  | none =>
  cases h2 : patch_control ctx.package ctx.config w1 with
  | mk w2 o2 =>
  have ht2 : w2.trace = [Stage.Debianize, Stage.ControlPatch] := by
    have := patch_control_trace ctx.package ctx.config w1
    rw [h2, ht1] at this
    simpa using this
  cases o2 with
  | some e =>
    have hb : build ctx w = (w2, Except.error e) := by
      simp only [build, h1, h2]
    refine ⟨2, by omega, by omega, ?_, ?_, ?_, ?_⟩
    · rw [hb]; exact ht2
    · intro p hp; rw [hb] at hp; exact Except.noConfusion hp
    · intro _; exact ⟨e, by rw [hb]⟩
    · intro e' he'
      rw [hb] at he'
      have he : e' = e := (Except.error.inj he').symm
      subst he
      refine ⟨w1, ?_, ?_⟩
      · show runLeading ctx [Stage.Debianize] w = some w1
        simp only [runLeading, runStage, h1]
      · show runStage ctx Stage.ControlPatch w1 = ((build ctx w).1, some e')
        rw [hb]
        simp only [runStage]
        rw [h2]
  | none =>
  cases h3 : apply_script ctx.package ctx.config ctx.verbose w2 with
  | mk w3 o3 =>
  have ht3 : w3.trace = [Stage.Debianize, Stage.ControlPatch, Stage.Script] := by
    have := apply_script_trace ctx.package ctx.config ctx.verbose w2
    rw [h3, ht2] at this
    simpa using this
  cases o3 with
  | some e =>
    have hb : build ctx w = (w3, Except.error e) := by
      simp only [build, h1, h2, h3]
    refine ⟨3, by omega, by omega, ?_, ?_, ?_, ?_⟩
    · rw [hb]; exact ht3
    · intro p hp; rw [hb] at hp; exact Except.noConfusion hp
    · intro _; exact ⟨e, by rw [hb]⟩
    · intro e' he'
      rw [hb] at he'
      have he : e' = e := (Except.error.inj he').symm
      subst he
      refine ⟨w2, ?_, ?_⟩
      · show runLeading ctx [Stage.Debianize, Stage.ControlPatch] w = some w2
        simp only [runLeading, runStage, h1, h2]
      · show runStage ctx Stage.Script w2 = ((build ctx w).1, some e')
        rw [hb]
        simp only [runStage]
        rw [h3]
  | none =>
  cases h4 : sanity_check_dependencies ctx.package.name ctx.auto_install w3 with
  | mk w4 o4 =>
  have ht4 : w4.trace =
      [Stage.Debianize, Stage.ControlPatch, Stage.Script, Stage.DepCheck] := by
    have := sanity_check_trace ctx.package.name ctx.auto_install w3
    rw [h4, ht3] at this
    simpa using this
  cases o4 with
  | some e =>
    have hb : build ctx w = (w4, Except.error e) := by
      simp only [build, h1, h2, h3, h4]
    refine ⟨4, by omega, by omega, ?_, ?_, ?_, ?_⟩
    · rw [hb]; exact ht4
    · intro p hp; rw [hb] at hp; exact Except.noConfusion hp
    · intro _; exact ⟨e, by rw [hb]⟩
    · intro e' he'
      rw [hb] at he'
      have he : e' = e := (Except.error.inj he').symm
      subst he
      refine ⟨w3, ?_, ?_⟩
      · show runLeading ctx [Stage.Debianize, Stage.ControlPatch, Stage.Script] w = some w3
        simp only [runLeading, runStage, h1, h2, h3]
      · show runStage ctx Stage.DepCheck w3 = ((build ctx w).1, some e')
        rw [hb]
        simp only [runStage]
        rw [h4]
  | none =>
  cases h5 : clean_package_tree ctx.package.directory w4 with
  | mk w5 o5 =>
  have ht5 : w5.trace =
      [Stage.Debianize, Stage.ControlPatch, Stage.Script, Stage.DepCheck, Stage.TreeClean] := by
    have := clean_package_tree_trace ctx.package.directory w4
    rw [h5, ht4] at this
    simpa using this
  cases o5 with
  | some e =>
    have hb : build ctx w = (w5, Except.error e) := by
      simp only [build, h1, h2, h3, h4, h5]
    refine ⟨5, by omega, by omega, ?_, ?_, ?_, ?_⟩
    · rw [hb]; exact ht5
    · intro p hp; rw [hb] at hp; exact Except.noConfusion hp
    · intro _; exact ⟨e, by rw [hb]⟩
    · intro e' he'
      rw [hb] at he'
      have he : e' = e := (Except.error.inj he').symm
      subst he
      refine ⟨w4, ?_, ?_⟩
      · show runLeading ctx
          [Stage.Debianize, Stage.ControlPatch, Stage.Script, Stage.DepCheck] w = some w4
        simp only [runLeading, runStage, h1, h2, h3, h4]
      · show runStage ctx Stage.TreeClean w4 = ((build ctx w).1, some e')
        rw [hb]
        simp only [runStage]
        rw [h5]
  | none =>
  cases h6 : dpkg_buildpackage ctx.package ctx.verbose w5 with
  | mk w6 r6 =>
  have hb : build ctx w = (w6, r6) := by
    simp only [build, h1, h2, h3, h4, h5, h6]
  have ht6 : w6.trace = stageOrder := by
    have := dpkg_buildpackage_trace ctx.package ctx.verbose w5
    rw [h6, ht5] at this
    simpa using this
  cases r6 with
  | ok p =>
    refine ⟨6, by omega, by omega, ?_, ?_, ?_, ?_⟩
    · rw [hb]; exact ht6
    · intro _ _; rfl
    · intro hlt; exact absurd hlt (by omega)
    · intro e' he'; rw [hb] at he'; exact Except.noConfusion he'
  | error e =>
    refine ⟨6, by omega, by omega, ?_, ?_, ?_, ?_⟩
    · rw [hb]; exact ht6
    · intro _ _; rfl
    · intro hlt; exact absurd hlt (by omega)
    · intro e' he'
      rw [hb] at he'
      have he : e' = e := (Except.error.inj he').symm
      subst he
      refine ⟨w5, ?_, ?_⟩
      · show runLeading ctx
          [Stage.Debianize, Stage.ControlPatch, Stage.Script, Stage.DepCheck,
           Stage.TreeClean] w = some w5
        simp only [runLeading, runStage, h1, h2, h3, h4, h5]
      · show runStage ctx Stage.Build w5 = ((build ctx w).1, some e')
        rw [hb]
        simp only [runStage]
        rw [h6]

/-- A concrete build context. -/
def ctx0 : Context :=
  { package := pkg0, config := config0, verbose := false, auto_install := false }

/-- C1 witness: the pipeline theorem applied to the concrete world `w0`
whose stages all succeed. -/
theorem c1_witness :
    w0.trace = [] ∧
    (∃ k, 1 ≤ k ∧ k ≤ 6 ∧ (build ctx0 w0).1.trace = stageOrder.take k ∧
      (∀ p, (build ctx0 w0).2 = Except.ok p → k = 6) ∧
      (k < 6 → ∃ e, (build ctx0 w0).2 = Except.error e) ∧
      (∀ e, (build ctx0 w0).2 = Except.error e →
        ∃ w', runLeading ctx0 (stageOrder.take (k - 1)) w0 = some w' ∧
          runStage ctx0 (stageOrder.getD (k - 1) Stage.Build) w' =
            ((build ctx0 w0).1, some e))) :=
  ⟨rfl, c1_pipeline ctx0 w0 rfl⟩

/-! ## C5: the artifact scan

The pattern `<debian_name>_*.deb` always ends in the literal characters
`.deb`, whatever `debian_name` is (a character class can never swallow
them because the appended tail contains no `]`), so every filename it
matches ends in `.deb`.  Hence the `endswith('.deb')` pre-filter of the
scan loop is redundant and the loop returns exactly the first listed
filename matching the glob. -/

/-- The literal tail of the archive glob. -/
def debSfx : List Char := ['.', 'd', 'e', 'b']

/-- Its tokenization. -/
def debToks : List Tok := debSfx.map Tok.lit

/-- `findRBrack` consumes at least the closing bracket. -/
lemma findRBrack_length : ∀ (l b a : List Char), findRBrack l = some (b, a) →
    a.length < l.length := by
  intro l
  induction l with
  | nil => intro b a h; exact Option.noConfusion h
  | cons c cs ih =>
    intro b a h
    simp only [findRBrack] at h
    split at h
    · have ha : a = cs := (congrArg Prod.snd (Option.some.inj h)).symm
      subst ha; simp
    · obtain ⟨p, hp, hfa⟩ := Option.map_eq_some'.mp h
      have ha : a = p.2 := (congrArg Prod.snd hfa).symm
      subst ha
      have := ih p.1 p.2 (by rw [hp])
      simp only [List.length_cons]
      omega

/-- A `findRBrack` over text ending in `.deb` splits before that tail. -/
lemma findRBrack_app_deb : ∀ (xs b a : List Char),
    findRBrack (xs ++ debSfx) = some (b, a) → ∃ xs', a = xs' ++ debSfx := by
  intro xs
  induction xs with
  | nil =>
    intro b a h
    rw [List.nil_append, show findRBrack debSfx = none from rfl] at h
    exact Option.noConfusion h
  | cons c cs ih =>
    intro b a h
    rw [List.cons_append] at h
    simp only [findRBrack] at h
    split at h
    · have := Option.some.inj h
      exact ⟨cs, (congrArg Prod.snd this).symm⟩
    · obtain ⟨p, hp, hfa⟩ := Option.map_eq_some'.mp h
      have ha : a = p.2 := (congrArg Prod.snd hfa).symm
      subst ha
      exact ih p.1 p.2 hp

/-- `skipRB` consumes at least the closing bracket. -/
lemma skipRB_length : ∀ (l b a : List Char), skipRB l = some (b, a) →
    a.length < l.length := by
  intro l
  cases l with
  | nil => intro b a h; exact Option.noConfusion h
  | cons c cs =>
    intro b a h
    simp only [skipRB] at h
    split at h
    · obtain ⟨p, hp, hfa⟩ := Option.map_eq_some'.mp h
      have ha : a = p.2 := (congrArg Prod.snd hfa).symm
      subst ha
      have := findRBrack_length cs p.1 p.2 (by rw [hp])
      simp only [List.length_cons]
      omega
    · exact findRBrack_length (c :: cs) b a h

/-- A `skipRB` over text ending in `.deb` splits before that tail. -/
lemma skipRB_app_deb : ∀ (xs b a : List Char),
    skipRB (xs ++ debSfx) = some (b, a) → ∃ xs', a = xs' ++ debSfx := by
  intro xs b a h
  cases xs with
  | nil =>
    rw [List.nil_append, show skipRB debSfx = none from rfl] at h
    exact Option.noConfusion h
  | cons c cs =>
    rw [List.cons_append] at h
    simp only [skipRB] at h
    split at h
    · obtain ⟨p, hp, hfa⟩ := Option.map_eq_some'.mp h
      have ha : a = p.2 := (congrArg Prod.snd hfa).symm
      subst ha
      exact findRBrack_app_deb cs p.1 p.2 hp
    · rw [← List.cons_append] at h
      exact findRBrack_app_deb (c :: cs) b a h

/-- `splitClass` consumes at least one character. -/
lemma splitClass_length : ∀ (l : List Char) (neg : Bool) (mem rest : List Char),
    splitClass l = some (neg, mem, rest) → rest.length < l.length := by
  intro l neg mem rest h
  cases l with
  | nil => exact Option.noConfusion h
  | cons c cs =>
    simp only [splitClass] at h
    split at h
    · obtain ⟨p, hp, hfa⟩ := Option.map_eq_some'.mp h
      have ha : rest = p.2 := (congrArg (fun t => t.2.2) hfa).symm
      subst ha
      have := skipRB_length cs p.1 p.2 (by rw [hp])
      simp only [List.length_cons]
      omega
    · obtain ⟨p, hp, hfa⟩ := Option.map_eq_some'.mp h
      have ha : rest = p.2 := (congrArg (fun t => t.2.2) hfa).symm
      subst ha
      exact skipRB_length (c :: cs) p.1 p.2 (by rw [hp])

/-- A class opened before the `.deb` tail closes before it: the
remaining pattern still ends in `.deb`. -/
lemma splitClass_app_deb : ∀ (q : List Char) (neg : Bool) (mem rest : List Char),
    splitClass (q ++ debSfx) = some (neg, mem, rest) → ∃ q', rest = q' ++ debSfx := by
  intro q neg mem rest h
  cases q with
  | nil =>
    rw [List.nil_append, show splitClass debSfx = none from rfl] at h
    exact Option.noConfusion h
  | cons c cs =>
    rw [List.cons_append] at h
    simp only [splitClass] at h
    split at h
    · obtain ⟨p, hp, hfa⟩ := Option.map_eq_some'.mp h
      have ha : rest = p.2 := (congrArg (fun t => t.2.2) hfa).symm
      subst ha
      exact skipRB_app_deb cs p.1 p.2 hp
    · obtain ⟨p, hp, hfa⟩ := Option.map_eq_some'.mp h
      have ha : rest = p.2 := (congrArg (fun t => t.2.2) hfa).symm
      subst ha
      rw [← List.cons_append] at hp
      exact skipRB_app_deb (c :: cs) p.1 p.2 hp

/-- Tokenizing a pattern that ends in the literal text `.deb` yields a
token list that ends in the four literal tokens `.deb`. -/
lemma tokenize_app_deb : ∀ (fuel : Nat) (q : List Char),
    (q ++ debSfx).length ≤ fuel →
    ∃ T, tokenize fuel (q ++ debSfx) = T ++ debToks := by
  intro fuel
  induction fuel with
  | zero =>
    intro q h
    exfalso
    simp only [List.length_append, debSfx, List.length_cons, List.length_nil] at h
    omega
  | succ f ih =>
    intro q hlen
    cases q with
    | nil =>
      refine ⟨[], ?_⟩
      rw [List.nil_append, List.nil_append]
      simp only [List.nil_append, debSfx, List.length_cons, List.length_nil] at hlen
      obtain ⟨g, rfl⟩ : ∃ g, f = g + 3 := ⟨f - 3, by omega⟩
      show tokenize (g + 4) debSfx = debToks
      simp [tokenize, debSfx, debToks]
    | cons c cs =>
      have hlen' : (cs ++ debSfx).length ≤ f := by
        simp only [List.cons_append, List.length_cons] at hlen
        omega
      rw [List.cons_append]
      by_cases h1 : c = '*'
      · subst h1
        rw [show tokenize (f + 1) ('*' :: (cs ++ debSfx)) =
            Tok.star :: tokenize f (cs ++ debSfx) from by simp [tokenize]]
        obtain ⟨T, hT⟩ := ih cs hlen'
        exact ⟨Tok.star :: T, by rw [hT]; rfl⟩
      by_cases h2 : c = '?'
      · subst h2
        rw [show tokenize (f + 1) ('?' :: (cs ++ debSfx)) =
            Tok.any :: tokenize f (cs ++ debSfx) from by simp [tokenize]]
        obtain ⟨T, hT⟩ := ih cs hlen'
        exact ⟨Tok.any :: T, by rw [hT]; rfl⟩
      by_cases h3 : c = '['
      · subst h3
        cases hsc : splitClass (cs ++ debSfx) with
        | none =>
          rw [show tokenize (f + 1) ('[' :: (cs ++ debSfx)) =
              Tok.lit '[' :: tokenize f (cs ++ debSfx) from by simp [tokenize, hsc]]
          obtain ⟨T, hT⟩ := ih cs hlen'
          exact ⟨Tok.lit '[' :: T, by rw [hT]; rfl⟩
        | some trip =>
          obtain ⟨neg, mem, rest⟩ := trip
          rw [show tokenize (f + 1) ('[' :: (cs ++ debSfx)) =
              Tok.cls neg mem :: tokenize f rest from by simp [tokenize, hsc]]
          obtain ⟨q', rfl⟩ := splitClass_app_deb cs neg mem rest hsc
          have hrest : (q' ++ debSfx).length ≤ f := by
            have := splitClass_length (cs ++ debSfx) neg mem _ hsc
            omega
          obtain ⟨T, hT⟩ := ih q' hrest
          exact ⟨Tok.cls neg mem :: T, by rw [hT]; rfl⟩
      · rw [show tokenize (f + 1) (c :: (cs ++ debSfx)) =
            Tok.lit c :: tokenize f (cs ++ debSfx) from by simp [tokenize, h1, h2, h3]]
        obtain ⟨T, hT⟩ := ih cs hlen'
        exact ⟨Tok.lit c :: T, by rw [hT]; rfl⟩

/-- A run of literal tokens matches exactly its own text. -/
lemma tokMatch_lits : ∀ (l n : List Char), tokMatch (l.map Tok.lit) n = true → n = l := by
  intro l
  induction l with
  | nil =>
    intro n h
    cases n with
    | nil => rfl
    | cons a m => simp [tokMatch] at h
  | cons c cs ih =>
    intro n h
    cases n with
    | nil => simp [tokMatch] at h
    | cons d m =>
      simp only [List.map_cons, tokMatch, Bool.and_eq_true, beq_iff_eq] at h
      obtain ⟨rfl, hm⟩ := h
      rw [ih m hm]

/-- Every name matched by a token list ending in the literal tokens
`.deb` ends in `.deb`. -/
lemma tokMatch_app_deb : ∀ (T : List Tok) (n : List Char),
    tokMatch (T ++ debToks) n = true → ∃ pre, n = pre ++ debSfx := by
  intro T
  induction T with
  | nil =>
    intro n h
    rw [List.nil_append] at h
    exact ⟨[], (tokMatch_lits debSfx n h).trans (List.nil_append _).symm⟩
  | cons t ts ih =>
    intro n h
    rw [List.cons_append] at h
    cases t with
    | star =>
      simp only [tokMatch, List.any_eq_true] at h
      obtain ⟨t', ht', hm⟩ := h
      obtain ⟨pre, rfl⟩ := ih t' hm
      obtain ⟨u, hu⟩ := (List.mem_tails _ _).mp ht'
      exact ⟨u ++ pre, by rw [← hu, List.append_assoc]⟩
    | any =>
      cases n with
      | nil => simp [tokMatch] at h
      | cons d m =>
        simp only [tokMatch] at h
        obtain ⟨pre, rfl⟩ := ih m h
        exact ⟨d :: pre, rfl⟩
    | lit c =>
      cases n with
      | nil => simp [tokMatch] at h
      | cons d m =>
        simp only [tokMatch, Bool.and_eq_true] at h
        obtain ⟨pre, rfl⟩ := ih m h.2
        exact ⟨d :: pre, rfl⟩
    | cls neg mem =>
      cases n with
      | nil => simp [tokMatch] at h
      | cons d m =>
        simp only [tokMatch, Bool.and_eq_true] at h
        obtain ⟨pre, rfl⟩ := ih m h.2
        exact ⟨d :: pre, rfl⟩

/-- Every filename matching the archive glob ends in `.deb`. -/
lemma fnmatch_deb_endswith (dn f : String)
    (h : fnmatch f (dn ++ "_*.deb") = true) : endswith f ".deb" = true := by
  unfold fnmatch at h
  have hdata : (dn ++ "_*.deb").data = (dn.data ++ ['_', '*']) ++ debSfx := by
    rw [String.data_append, List.append_assoc]
    rfl
  rw [hdata] at h
  obtain ⟨T, hT⟩ := tokenize_app_deb ((dn.data ++ ['_', '*']) ++ debSfx).length
    (dn.data ++ ['_', '*']) (le_refl _)
  rw [hT] at h
  obtain ⟨pre, hpre⟩ := tokMatch_app_deb T f.data h
  unfold endswith
  rw [hpre, List.reverse_append,
    List.take_left' (by decide : debSfx.reverse.length = (".deb" : String).data.length)]
  decide

/-- `find?` only depends on the pointwise behaviour of the predicate. -/
lemma find?_congr {α : Type} (l : List α) (p q : α → Bool) (h : ∀ a, p a = q a) :
    l.find? p = l.find? q := by
  induction l with
  | nil => rfl
  | cons x xs ih =>
    simp only [List.find?, h x]
    cases q x <;> simp [ih]

/-- The scan loop's `.deb`-ending pre-filter is redundant: the loop
finds exactly the first filename matching the glob. -/
lemma findDeb_eq_glob (dn : String) (listing : List String) :
    findDeb dn listing = listing.find? (fun f => fnmatch f (dn ++ "_*.deb")) := by
  apply find?_congr
  intro f
  cases hm : fnmatch f (dn ++ "_*.deb") with
  | false => simp [hm]
  | true => simp [hm, fnmatch_deb_endswith dn f hm]

/-- After a successful build, `dpkg_buildpackage` returns the scan of
the parent directory listing. -/
lemma dpkg_buildpackage_scan (package : Package) (verbose : Bool) (w : World)
    (hrun : w.run buildCommand package.directory verbose = false) :
    (dpkg_buildpackage package verbose w).2 =
      (match findDeb package.debian_name (w.listdir (dirname package.directory)) with
       | some filename => Except.ok (joinPath (dirname package.directory) filename)
       | none => Except.error (Err.BackendFailed ("Could not find generated archive of " ++
           package.name ++ "!"))) := by
  cases verbose <;> cases hs : w.stdeb_version == "0.6.0+git" <;>
    simp only [dpkg_buildpackage, hs, if_true, if_false, Bool.false_eq_true,
      ite_true, ite_false] <;>
    rw [hrun] <;>
    simp only [Bool.false_eq_true, if_false, ite_false] <;>
    split <;> rfl

/-- C5: after a successful native build, the scan lists the parent of
the package directory and returns the path of the first listed file
whose name matches the glob `<debian_name>_*.deb`; a file not matching
that glob is never returned; and when no listed file matches, the scan
fails with `BackendFailed`. -/
theorem c5_artifact_scan (package : Package) (verbose : Bool) (w : World)
    (hrun : w.run buildCommand package.directory verbose = false) :
    ((∀ f ∈ w.listdir (dirname package.directory),
        fnmatch f (package.debian_name ++ "_*.deb") = false) →
      (dpkg_buildpackage package verbose w).2 =
        Except.error (Err.BackendFailed ("Could not find generated archive of " ++
          package.name ++ "!"))) ∧
    (∀ f, (w.listdir (dirname package.directory)).find?
        (fun g => fnmatch g (package.debian_name ++ "_*.deb")) = some f →
      (dpkg_buildpackage package verbose w).2 =
        Except.ok (joinPath (dirname package.directory) f)) ∧
    (∀ p, (dpkg_buildpackage package verbose w).2 = Except.ok p →
      ∃ f, f ∈ w.listdir (dirname package.directory) ∧
        fnmatch f (package.debian_name ++ "_*.deb") = true ∧
        p = joinPath (dirname package.directory) f) := by
  refine ⟨?_, ?_, ?_⟩
  · intro hnone
    rw [dpkg_buildpackage_scan package verbose w hrun]
    have hfd : findDeb package.debian_name (w.listdir (dirname package.directory)) = none := by
      rw [findDeb_eq_glob]
      exact List.find?_eq_none.mpr (fun f hf => by rw [hnone f hf]; simp)
    rw [hfd]
  · intro f hf
    rw [dpkg_buildpackage_scan package verbose w hrun]
    have hfd : findDeb package.debian_name (w.listdir (dirname package.directory)) = some f := by
      rw [findDeb_eq_glob]
      exact hf
    rw [hfd]
  · intro p hp
    rw [dpkg_buildpackage_scan package verbose w hrun] at hp
    cases hfd : findDeb package.debian_name (w.listdir (dirname package.directory)) with
    | none => rw [hfd] at hp; exact Except.noConfusion hp
    | some f =>
      rw [hfd] at hp
      rw [findDeb_eq_glob] at hfd
      exact ⟨f, List.mem_of_find?_eq_some hfd, by simpa using List.find?_some hfd,
        (Except.ok.inj hp).symm⟩

/-- C5 witness: the scan theorem applied to a listing containing a
non-matching tarball and a matching archive. -/
theorem c5_witness :
    w0.run buildCommand pkg0.directory false = false ∧
    (w0.listdir (dirname pkg0.directory)).find?
      (fun g => fnmatch g (pkg0.debian_name ++ "_*.deb")) = some "pydeb-foo_1.0-1_all.deb" ∧
    (dpkg_buildpackage pkg0 false w0).2 =
      Except.ok (joinPath (dirname pkg0.directory) "pydeb-foo_1.0-1_all.deb") :=
  ⟨rfl, by decide,
    (c5_artifact_scan pkg0 false w0 rfl).2.1 "pydeb-foo_1.0-1_all.deb" (by decide)⟩

/-! ## C7: user overrides are applied after computed overrides -/

/-- `eqCI` is reflexive. -/
lemma eqCI_refl (a : String) : eqCI a a = true := by simp [eqCI]

/-- `eqCI` is symmetric. -/
lemma eqCI_comm (a b : String) : eqCI a b = eqCI b a := by
  unfold eqCI
  by_cases h : a.data.map Char.toLower = b.data.map Char.toLower
  · simp [h]
  · simp [h, Ne.symm h]

/-- Rewriting the right argument of `eqCI` along a case-insensitive
equality. -/
lemma eqCI_congr_right (a b c : String) (hbc : eqCI b c = true) :
    eqCI a b = eqCI a c := by
  unfold eqCI at hbc ⊢
  rw [beq_iff_eq.mp hbc]

/-- The in-place replacement pass of `mergeField` makes the merged key
look up to the merged value. -/
lemma lookupCI_map_replace : ∀ (p : Paragraph) (k v k' : String), eqCI k' k = true →
    p.any (fun f => eqCI f.name k) = true →
    lookupCI (p.map (fun f => if eqCI f.name k then { f with value := v, conts := [] } else f))
      k' = some v := by
  intro p k v k' h
  induction p with
  | nil => intro hex; simp at hex
  | cons f fs ih =>
    intro hex
    by_cases hf : eqCI f.name k = true
    · have hf' : eqCI f.name k' = true := by
        rw [eqCI_congr_right f.name k' k h]
        exact hf
      simp only [List.map_cons, hf, if_true, lookupCI, List.find?, hf']
      rfl
    · have hf0 : eqCI f.name k = false := eq_false_of_ne_true hf
      have hf' : eqCI f.name k' = false := by
        rw [eqCI_congr_right f.name k' k h]
        exact hf0
      have hex' : fs.any (fun f => eqCI f.name k) = true := by
        simp only [List.any_cons, hf0, Bool.false_or] at hex
        exact hex
      have := ih hex'
      simp only [List.map_cons, hf0, Bool.false_eq_true, if_false, lookupCI, List.find?,
        hf'] at this ⊢
      exact this

/-- Prepending fields whose names all differ (case-insensitively) from
the key does not affect the lookup. -/
lemma lookupCI_append_skip : ∀ (p g : Paragraph) (k' : String),
    (∀ f ∈ p, eqCI f.name k' = false) →
    lookupCI (p ++ g) k' = lookupCI g k' := by
  intro p g k'
  induction p with
  | nil => intro _; rfl
  | cons f fs ih =>
    intro hall
    have hf : eqCI f.name k' = false := hall f (List.mem_cons_self f fs)
    have := ih (fun f' hf' => hall f' (List.mem_cons_of_mem f hf'))
    simp only [List.cons_append, lookupCI, List.find?, hf] at this ⊢
    exact this

/-- Looking up (case-insensitively) the key just merged yields the
merged value. -/
lemma lookupCI_mergeField_same (p : Paragraph) (k v k' : String) (h : eqCI k' k = true) :
    lookupCI (mergeField p k v) k' = some v := by
  unfold mergeField
  split
  case isTrue hex => exact lookupCI_map_replace p k v k' h hex
  case isFalse hex =>
    have hall : ∀ f ∈ p, eqCI f.name k' = false := by
      intro f hf
      rw [eqCI_congr_right f.name k' k h]
      by_contra hc
      have ht : eqCI f.name k = true := by revert hc; cases eqCI f.name k <;> simp
      exact hex (List.any_eq_true.mpr ⟨f, hf, ht⟩)
    rw [lookupCI_append_skip p _ k' hall]
    have hk : eqCI k k' = true := by rw [eqCI_comm]; exact h
    simp [lookupCI, List.find?, hk]

/-- The replacement pass leaves lookups of other keys unchanged. -/
lemma lookupCI_map_keep : ∀ (p : Paragraph) (k v k' : String), eqCI k' k = false →
    lookupCI (p.map (fun f => if eqCI f.name k then { f with value := v, conts := [] } else f))
      k' = lookupCI p k' := by
  intro p k v k' h
  induction p with
  | nil => rfl
  | cons f fs ih =>
    by_cases hf : eqCI f.name k = true
    · have hf' : eqCI f.name k' = false := by
        rw [eqCI_comm f.name k']
        rw [eqCI_congr_right k' f.name k hf]
        exact h
      simp only [List.map_cons, hf, if_true, lookupCI, List.find?, hf'] at ih ⊢
      exact ih
    · have hf0 : eqCI f.name k = false := eq_false_of_ne_true hf
      by_cases hk' : eqCI f.name k' = true
      · simp only [List.map_cons, hf0, Bool.false_eq_true, if_false, lookupCI, List.find?, hk']
      · have hk0 : eqCI f.name k' = false := eq_false_of_ne_true hk'
        simp only [List.map_cons, hf0, Bool.false_eq_true, if_false, lookupCI, List.find?,
          hk0] at ih ⊢
        exact ih

/-- Appending one non-matching field leaves lookups unchanged. -/
lemma lookupCI_append_last_skip : ∀ (p : Paragraph) (f0 : Field) (k' : String),
    eqCI f0.name k' = false → lookupCI (p ++ [f0]) k' = lookupCI p k' := by
  intro p f0 k' h
  induction p with
  | nil => simp [lookupCI, List.find?, h]
  | cons f fs ih =>
    by_cases hk' : eqCI f.name k' = true
    · simp only [List.cons_append, lookupCI, List.find?, hk']
    · have hk0 : eqCI f.name k' = false := eq_false_of_ne_true hk'
      simp only [List.cons_append, lookupCI, List.find?, hk0] at ih ⊢
      exact ih

/-- Merging one override does not affect the lookup of a
case-insensitively different key. -/
lemma lookupCI_mergeField_other (p : Paragraph) (k v k' : String) (h : eqCI k' k = false) :
    lookupCI (mergeField p k v) k' = lookupCI p k' := by
  unfold mergeField
  split
  case isTrue hex => exact lookupCI_map_keep p k v k' h
  case isFalse hex =>
    refine lookupCI_append_last_skip p _ k' ?_
    show eqCI k k' = false
    rw [eqCI_comm]
    exact h

/-- Folding overrides none of which matches `k` preserves the lookup of
`k`. -/
lemma lookupCI_fold_skip : ∀ (ys : List (String × String)) (q : Paragraph) (k vu : String),
    lookupCI q k = some vu → (∀ kv ∈ ys, eqCI kv.1 k = false) →
    lookupCI (ys.foldl (fun acc kv => mergeField acc kv.1 kv.2) q) k = some vu := by
  intro ys
  induction ys with
  | nil => intro q k vu h _; exact h
  | cons kv ys' ih =>
    intro q k vu h hys
    rw [List.foldl_cons]
    refine ih _ k vu ?_ (fun kv' hkv' => hys kv' (List.mem_cons_of_mem kv hkv'))
    rw [lookupCI_mergeField_other q kv.1 kv.2 k ?_]
    · exact h
    · rw [eqCI_comm]
      exact hys kv (List.mem_cons_self kv ys')

/-- After merging an override list whose last occurrence of key `k`
carries value `vu`, looking up `k` yields `vu`. -/
lemma lookupCI_merge_last (p : Paragraph) (xs : List (String × String)) (k vu : String)
    (ys : List (String × String)) (hys : ∀ kv ∈ ys, eqCI kv.1 k = false) :
    lookupCI (merge_control_fields p (xs ++ (k, vu) :: ys)) k = some vu := by
  unfold merge_control_fields
  rw [List.foldl_append, List.foldl_cons]
  exact lookupCI_fold_skip ys _ k vu (lookupCI_mergeField_same _ k vu k (eqCI_refl k)) hys

/-- Reading back the file just written. -/
lemma readFile_writeFile (fs : FS) (p : String) (c : List String) :
    readFile (writeFile fs p c) p = some c := by
  show List.lookup p (setAssoc fs.files p c) = some c
  induction fs.files with
  | nil => simp [setAssoc, List.lookup]
  | cons kv rest ih =>
    obtain ⟨q, d⟩ := kv
    by_cases hq : q = p
    · subst hq
      simp [setAssoc, List.lookup]
    · have h1 : (q == p) = false := beq_eq_false_iff_ne.mpr hq
      have h2 : (p == q) = false := beq_eq_false_iff_ne.mpr (Ne.symm hq)
      simp only [setAssoc, h1, Bool.false_eq_true, if_false, List.lookup, h2]
      exact ih

/-- The write path of `patch_control`: with a readable two-paragraph
control file, it writes back the dump of the first paragraph, one blank
line, and the dump of the patched second paragraph. -/
lemma patch_control_write (package : Package) (config : Config) (w : World)
    (content : List String) (p0 p1 : Paragraph)
    (hread : readFile w.fs (controlPath package) = some content)
    (hpars : (iter_paragraphs content).map parseParagraph = [p0, p1]) :
    patch_control package config w =
      ({ w with trace := w.trace ++ [Stage.ControlPatch],
                fs := writeFile w.fs (controlPath package)
                  (dumpPar p0 ++ "" :: dumpPar (patch_control_file config package
                    (merge_control_fields p1 (computedOverrides w package)))) }, none) := by
  have hread' : readFile ({ w with trace := w.trace ++ [Stage.ControlPatch] } : World).fs
      (controlPath package) = some content := hread
  simp only [patch_control, hread', hpars]
  norm_num
  rfl

/-- C7: the computed overrides (Package, Description, Depends) are
merged into the binary paragraph first and the user override pass runs
afterwards on the result, so a field set by both ends up with the
user-override value in the paragraph written back. -/
theorem c7_user_overrides_win (package : Package) (config : Config) (w : World)
    (content : List String) (p0 p1 : Paragraph) (k vu : String)
    (uo1 uo2 : List (String × String))
    (hread : readFile w.fs (controlPath package) = some content)
    (hpars : (iter_paragraphs content).map parseParagraph = [p0, p1])
    (huo : config.overrides package.name = uo1 ++ (k, vu) :: uo2)
    (hlast : ∀ kv ∈ uo2, eqCI kv.1 k = false)
    (hcomputed : (eqCI k "Package" || eqCI k "Description" || eqCI k "Depends") = true) :
    ∃ w', patch_control package config w = (w', none) ∧
      readFile w'.fs (controlPath package) =
        some (dumpPar p0 ++ "" :: dumpPar (patch_control_file config package
          (merge_control_fields p1 (computedOverrides w package)))) ∧
      lookupCI (patch_control_file config package
        (merge_control_fields p1 (computedOverrides w package))) k = some vu := by
  refine ⟨_, patch_control_write package config w content p0 p1 hread hpars, ?_, ?_⟩
  · exact readFile_writeFile w.fs (controlPath package) _
  · unfold patch_control_file
    rw [huo]
    exact lookupCI_merge_last _ uo1 k vu uo2 hlast

/-- A configuration carrying one user override for `foo`. -/
def configU : Config :=
  { script := fun _ => none,
    overrides := fun n => if n == "foo" then [("Description", "user description")] else [] }

/-- C7 witness: with a user `Description` override, the paragraph
written back carries the user value, not the computed timestamp. -/
theorem c7_witness :
    readFile w0.fs (controlPath pkg0) = some content0 ∧
    configU.overrides pkg0.name = [] ++ ("Description", "user description") :: [] ∧
    (∃ w', patch_control pkg0 configU w0 = (w', none) ∧
      readFile w'.fs (controlPath pkg0) =
        some (dumpPar [⟨"Source", "foo", []⟩, ⟨"Maintainer", "Foo Bar", []⟩] ++
          "" :: dumpPar (patch_control_file configU pkg0
            (merge_control_fields [⟨"Package", "foo", []⟩, ⟨"Depends", "x", []⟩]
              (computedOverrides w0 pkg0)))) ∧
      lookupCI (patch_control_file configU pkg0
        (merge_control_fields [⟨"Package", "foo", []⟩, ⟨"Depends", "x", []⟩]
          (computedOverrides w0 pkg0))) "Description" = some "user description") :=
  ⟨rfl, rfl,
    c7_user_overrides_win pkg0 configU w0 content0
      [⟨"Source", "foo", []⟩, ⟨"Maintainer", "Foo Bar", []⟩]
      [⟨"Package", "foo", []⟩, ⟨"Depends", "x", []⟩]
      "Description" "user description" [] []
      rfl (by decide) rfl (by simp) (by decide)⟩

/-! ## C9: the round-trip law for well-formed two-paragraph documents -/

/-- `breakColon` really splits at a colon. -/
lemma breakColon_eq : ∀ (cs a b : List Char), breakColon cs = some (a, b) →
    cs = a ++ ':' :: b := by
  intro cs
  induction cs with
  | nil => intro a b h; exact Option.noConfusion h
  | cons c cs' ih =>
    intro a b h
    simp only [breakColon] at h
    split at h
    case isTrue hc =>
      have h1 : a = [] := (congrArg Prod.fst (Option.some.inj h)).symm
      have h2 : b = cs' := (congrArg Prod.snd (Option.some.inj h)).symm
      subst h1; subst h2
      rw [beq_iff_eq.mp hc]
      rfl
    case isFalse hc =>
      obtain ⟨p, hp, hfa⟩ := Option.map_eq_some'.mp h
      have h1 : a = c :: p.1 := (congrArg Prod.fst hfa).symm
      have h2 : b = p.2 := (congrArg Prod.snd hfa).symm
      subst h1; subst h2
      rw [List.cons_append, ← ih p.1 p.2 hp]

/-- What `valueOk` guarantees: one space, then a value that the lenient
parser's whitespace stripping leaves intact. -/
lemma valueOk_spec : ∀ (rest : List Char), valueOk rest = true →
    ∃ v, rest = ' ' :: v ∧ v.dropWhile (fun c => c == ' ' || c == '\t') = v := by
  intro rest h
  cases rest with
  | nil => exact Bool.noConfusion h
  | cons r v =>
    simp only [valueOk] at h
    split at h
    case isTrue hr =>
      refine ⟨v, by rw [beq_iff_eq.mp hr], ?_⟩
      cases v with
      | nil => rfl
      | cons c v' =>
        have h' : (!(c == ' ' || c == '\t')) = true := h
        exact List.dropWhile_cons_of_neg (by simpa using h')
    case isFalse hr => exact Bool.noConfusion h

/-- Unpacking a strict field line: its parse, its shape and the facts
about its first character. -/
lemma strictFieldLine_parse (l : String) (h : strictFieldLine l = true) :
    ∃ (name v : List Char),
      parseFieldLine l = some (String.mk name, String.mk v) ∧
      l.data = name ++ ':' :: ' ' :: v ∧
      name ≠ [] ∧ name.all (fun c => !c.isWhitespace) = true := by
  unfold strictFieldLine at h
  cases hbc : breakColon l.data with
  | none => rw [hbc] at h; exact Bool.noConfusion h
  | some pr =>
    obtain ⟨name, rest⟩ := pr
    rw [hbc] at h
    simp only [Bool.and_eq_true] at h
    obtain ⟨⟨hne, hws⟩, hvo⟩ := h
    obtain ⟨v, hrest, hdw⟩ := valueOk_spec rest hvo
    subst hrest
    have hnonempty : ¬name.isEmpty := by simpa using hne
    have hany : name.any Char.isWhitespace = false := by
      cases hca : name.any Char.isWhitespace with
      | false => rfl
      | true =>
        obtain ⟨c, hc, hcw⟩ := List.any_eq_true.mp hca
        have := List.all_eq_true.mp hws c hc
        simp [hcw] at this
    refine ⟨name, v, ?_, breakColon_eq l.data name (' ' :: v) hbc, ?_, hws⟩
    · unfold parseFieldLine
      rw [hbc]
      dsimp only []
      rw [if_neg (by simp [hnonempty, hany])]
      rw [List.dropWhile_cons_of_pos (by simp), hdw]
    · intro hnil
      subst hnil
      simp at hnonempty

/-- A strict field line reconstructs itself when dumped. -/
lemma strictFieldLine_dump (l : String) (name v : List Char)
    (hdata : l.data = name ++ ':' :: ' ' :: v) :
    String.mk name ++ ": " ++ String.mk v = l := by
  apply String.ext
  simp only [String.data_append, hdata]
  show (name ++ (": " : String).data) ++ v = name ++ ':' :: ' ' :: v
  rw [List.append_assoc]
  rfl

/-- A strict field line does not start with space or tab. -/
lemma strictFieldLine_not_spacetab (l : String) (h : strictFieldLine l = true) :
    startsSpaceTab l = false := by
  obtain ⟨name, v, _, hdata, hne, hws⟩ := strictFieldLine_parse l h
  cases hn : name with
  | nil => exact absurd hn hne
  | cons c name' =>
    subst hn
    unfold startsSpaceTab
    rw [hdata]
    simp only [List.cons_append]
    have hcw : c.isWhitespace = false := by
      have := List.all_eq_true.mp hws c (List.mem_cons_self c name')
      simpa using this
    have h1 : (c == ' ') = false := by
      cases hc : c == ' ' with
      | false => rfl
      | true => rw [beq_iff_eq.mp hc] at hcw; exact Bool.noConfusion hcw
    have h2 : (c == '\t') = false := by
      cases hc : c == '\t' with
      | false => rfl
      | true => rw [beq_iff_eq.mp hc] at hcw; exact Bool.noConfusion hcw
    simp [h1, h2]

/-- A strict field line is not blank. -/
lemma strictFieldLine_not_blank (l : String) (h : strictFieldLine l = true) :
    isBlank l = false := by
  obtain ⟨name, v, _, hdata, hne, hws⟩ := strictFieldLine_parse l h
  cases hn : name with
  | nil => exact absurd hn hne
  | cons c name' =>
    subst hn
    have hcw : c.isWhitespace = false := by
      have := List.all_eq_true.mp hws c (List.mem_cons_self c name')
      simpa using this
    cases hib : isBlank l with
    | false => rfl
    | true =>
      unfold isBlank at hib
      have := List.all_eq_true.mp hib c (by rw [hdata]; exact List.mem_append_left _ (List.mem_cons_self c name'))
      rw [this] at hcw
      exact Bool.noConfusion hcw

/-- `dumpPar` distributes over append. -/
lemma dumpPar_append (a b : Paragraph) : dumpPar (a ++ b) = dumpPar a ++ dumpPar b := by
  induction a with
  | nil => rfl
  | cons f fs ih =>
    show dumpField f ++ dumpPar (fs ++ b) = (dumpField f ++ dumpPar fs) ++ dumpPar b
    rw [ih, List.append_assoc]

/-- Appending a continuation line to the last field extends the dump by
exactly that line. -/
lemma appendCont_dump : ∀ (fields : List Field) (l : String), fields ≠ [] →
    dumpPar (appendCont fields l) = dumpPar fields ++ [l] := by
  intro fields
  induction fields with
  | nil => intro l h; exact absurd rfl h
  | cons f fs ih =>
    intro l _
    cases fs with
    | nil =>
      show dumpField { f with conts := f.conts ++ [l] } ++ [] = (dumpField f ++ []) ++ [l]
      simp [dumpField]
    | cons g rest =>
      show dumpField f ++ dumpPar (appendCont (g :: rest) l) =
        (dumpField f ++ dumpPar (g :: rest)) ++ [l]
      rw [ih l (by simp), List.append_assoc]

/-- `appendCont` preserves the field names. -/
lemma appendCont_names : ∀ (fields : List Field) (l : String),
    (appendCont fields l).map (fun f => f.name) = fields.map (fun f => f.name) := by
  intro fields
  induction fields with
  | nil => intro l; rfl
  | cons f fs ih =>
    intro l
    cases fs with
    | nil => rfl
    | cons g rest =>
      show f.name :: (appendCont (g :: rest) l).map (fun f => f.name) =
        f.name :: (g :: rest).map (fun f => f.name)
      rw [ih l]

/-- `appendCont` preserves nonemptiness. -/
lemma appendCont_ne : ∀ (fields : List Field) (l : String), fields ≠ [] →
    appendCont fields l ≠ [] := by
  intro fields l h
  cases fields with
  | nil => exact absurd rfl h
  | cons f fs => cases fs <;> simp [appendCont]

/-- The field names of a block starting with a continuation line. -/
lemma fieldNames_cons_cont (l : String) (ls : List String) (h : startsSpaceTab l = true) :
    fieldNames (l :: ls) = fieldNames ls := by
  simp [fieldNames, h]

/-- The field names of a block starting with a parsed field line. -/
lemma fieldNames_cons_field (l : String) (ls : List String) (n v : String)
    (h : startsSpaceTab l = false) (hp : parseFieldLine l = some (n, v)) :
    fieldNames (l :: ls) = n :: fieldNames ls := by
  simp [fieldNames, h, hp]

/-- Unfolding `blockLinesOk`. -/
lemma blockLinesOk_all : ∀ (b : List String), blockLinesOk b = true →
    ∀ l ∈ b, strictFieldLine l = true ∨ contLine l = true := by
  intro b
  induction b with
  | nil => intro _ l hl; exact absurd hl (List.not_mem_nil l)
  | cons x xs ih =>
    intro h l hl
    simp only [blockLinesOk, Bool.and_eq_true] at h
    rcases List.mem_cons.mp hl with rfl | hl'
    · have h1 := h.1
      rw [Bool.or_eq_true] at h1
      exact h1
    · exact ih h.2 l hl'

/-- The accumulator-generalized round trip of the paragraph parser: on
a block of strict field lines and continuation lines with fresh,
pairwise-distinct names, folding the parser and dumping gives back the
dump of the accumulator followed by the block. -/
lemma parsePara_fold_dump : ∀ (b : List String) (fields : List Field),
    (∀ l ∈ b, strictFieldLine l = true ∨ contLine l = true) →
    (∀ n ∈ fieldNames b, ∀ f ∈ fields, eqCI f.name n = false) →
    namesDistinctCI (fieldNames b) = true →
    (fields = [] → ∀ l, b.head? = some l → startsSpaceTab l = false) →
    dumpPar (b.foldl parseParaStep fields) = dumpPar fields ++ b := by
  intro b
  induction b with
  | nil => intro fields _ _ _ _; simp
  | cons l ls ih =>
    intro fields hlines hfresh hdist hstart
    rw [List.foldl_cons]
    by_cases hsp : startsSpaceTab l = true
    · -- continuation line
      have hne : fields ≠ [] := by
        intro hnil
        have := hstart hnil l rfl
        rw [this] at hsp
        exact Bool.noConfusion hsp
      have hstep : parseParaStep fields l = appendCont fields l := by
        simp [parseParaStep, hsp]
      rw [hstep]
      have hn := fieldNames_cons_cont l ls hsp
      have hfresh' : ∀ n ∈ fieldNames ls, ∀ f ∈ appendCont fields l, eqCI f.name n = false := by
        intro n hn' f hf
        have hmem : f.name ∈ fields.map (fun f => f.name) := by
          rw [← appendCont_names fields l]
          exact List.mem_map_of_mem _ hf
        obtain ⟨f0, hf0, hfn⟩ := List.mem_map.mp hmem
        rw [← hfn]
        exact hfresh n (by rw [hn]; exact hn') f0 hf0
      rw [ih (appendCont fields l)
        (fun l' hl' => hlines l' (List.mem_cons_of_mem l hl'))
        hfresh'
        (by rw [hn] at hdist; exact hdist)
        (fun hnil => absurd hnil (appendCont_ne fields l hne))]
      rw [appendCont_dump fields l hne, List.append_assoc]
      rfl
    · -- strict field line
      have hsp' : startsSpaceTab l = false := eq_false_of_ne_true hsp
      have hstrict : strictFieldLine l = true := by
        rcases hlines l (List.mem_cons_self l ls) with h | h
        · exact h
        · exfalso
          unfold contLine at h
          rw [hsp'] at h
          exact Bool.noConfusion (Bool.and_eq_true .. ▸ h).1
      obtain ⟨name, v, hpf, hdata, hnne, hws⟩ := strictFieldLine_parse l hstrict
      have hstep : parseParaStep fields l = addField fields (String.mk name) (String.mk v) := by
        simp [parseParaStep, hsp', hpf]
      rw [hstep]
      have hn := fieldNames_cons_field l ls (String.mk name) (String.mk v) hsp' hpf
      have hany : (fields.any (fun f => eqCI f.name (String.mk name))) = false := by
        cases hc : fields.any (fun f => eqCI f.name (String.mk name)) with
        | false => rfl
        | true =>
          obtain ⟨f, hf, hfc⟩ := List.any_eq_true.mp hc
          have := hfresh (String.mk name) (by rw [hn]; exact List.mem_cons_self _ _) f hf
          rw [this] at hfc
          exact Bool.noConfusion hfc
      have hadd : addField fields (String.mk name) (String.mk v) =
          fields ++ [⟨String.mk name, String.mk v, []⟩] := by
        simp [addField, hany]
      rw [hadd]
      rw [hn] at hdist
      simp only [namesDistinctCI, Bool.and_eq_true] at hdist
      have hfresh' : ∀ n ∈ fieldNames ls,
          ∀ f ∈ fields ++ [(⟨String.mk name, String.mk v, []⟩ : Field)],
          eqCI f.name n = false := by
        intro n hn' f hf
        rcases List.mem_append.mp hf with hf' | hf'
        · exact hfresh n (by rw [hn]; exact List.mem_cons_of_mem _ hn') f hf'
        · have hfeq : f = (⟨String.mk name, String.mk v, []⟩ : Field) := by
            simpa using hf'
          subst hfeq
          have := List.all_eq_true.mp hdist.1 n hn'
          simpa using this
      rw [ih (fields ++ [(⟨String.mk name, String.mk v, []⟩ : Field)])
        (fun l' hl' => hlines l' (List.mem_cons_of_mem l hl'))
        hfresh'
        hdist.2
        (fun hnil => absurd hnil (by simp))]
      rw [dumpPar_append]
      have hdf : dumpField (⟨String.mk name, String.mk v, []⟩ : Field) = [l] := by
        unfold dumpField
        rw [strictFieldLine_dump l name v hdata]
      have hdp : dumpPar [(⟨String.mk name, String.mk v, []⟩ : Field)] = [l] := by
        show dumpField (⟨String.mk name, String.mk v, []⟩ : Field) ++ [] = [l]
        rw [hdf]
        rfl
      rw [hdp]
      simp

/-- Folding the splitter over non-blank lines extends the current
block. -/
lemma foldl_splitStep_nonblank : ∀ (block : List String) (done : List (List String))
    (cur : List String), (∀ l ∈ block, isBlank l = false) →
    block.foldl splitStep (done, cur) = (done, cur ++ block) := by
  intro block
  induction block with
  | nil => intro done cur _; simp
  | cons l ls ih =>
    intro done cur hall
    rw [List.foldl_cons]
    have hstep : splitStep (done, cur) l = (done, cur ++ [l]) := by
      simp [splitStep, hall l (List.mem_cons_self l ls)]
    rw [hstep, ih done (cur ++ [l]) (fun l' hl' => hall l' (List.mem_cons_of_mem l hl'))]
    simp

/-- Splitting a document made of two non-blank blocks separated by one
empty line yields exactly those two blocks. -/
lemma iter_paragraphs_two (b0 b1 : List String) (h0 : b0 ≠ [])
    (hnb0 : ∀ l ∈ b0, isBlank l = false) (h1 : b1 ≠ [])
    (hnb1 : ∀ l ∈ b1, isBlank l = false) :
    iter_paragraphs (b0 ++ "" :: b1) = [b0, b1] := by
  unfold iter_paragraphs
  rw [List.foldl_append, foldl_splitStep_nonblank b0 [] [] hnb0]
  rw [List.foldl_cons]
  have hstep : splitStep ([], [] ++ b0) "" = ([[] ++ b0], []) := by
    cases hb : b0 with
    | nil => exact absurd hb h0
    | cons x xs => simp [splitStep, isBlank]
  rw [hstep, foldl_splitStep_nonblank b1 [[] ++ b0] [] hnb1]
  cases hb : b1 with
  | nil => exact absurd hb h1
  | cons y ys => simp

/-- What `breakAtBlank` finding a split means. -/
lemma breakAtBlank_spec : ∀ (x : List String) (b0 : List String) (sep : String)
    (b1 : List String), breakAtBlank x = some (b0, sep, b1) →
    x = b0 ++ sep :: b1 ∧ (∀ l ∈ b0, isBlank l = false) ∧ isBlank sep = true := by
  intro x
  induction x with
  | nil => intro b0 sep b1 h; exact Option.noConfusion h
  | cons l ls ih =>
    intro b0 sep b1 h
    simp only [breakAtBlank] at h
    split at h
    case isTrue hc =>
      have h0 : b0 = [] := (congrArg (fun t => t.1) (Option.some.inj h)).symm
      have h1 : sep = l := (congrArg (fun t => t.2.1) (Option.some.inj h)).symm
      have h2 : b1 = ls := (congrArg (fun t => t.2.2) (Option.some.inj h)).symm
      subst h0; subst h1; subst h2
      exact ⟨rfl, fun l' hl' => absurd hl' (List.not_mem_nil l'), hc⟩
    case isFalse hc =>
      obtain ⟨p, hp, hfa⟩ := Option.map_eq_some'.mp h
      have h0 : b0 = l :: p.1 := (congrArg (fun t => t.1) hfa).symm
      have h1 : sep = p.2.1 := (congrArg (fun t => t.2.1) hfa).symm
      have h2 : b1 = p.2.2 := (congrArg (fun t => t.2.2) hfa).symm
      subst h0; subst h1; subst h2
      obtain ⟨hx, hnb, hsep⟩ := ih p.1 p.2.1 p.2.2 (by rw [hp])
      refine ⟨by rw [List.cons_append, ← hx], ?_, hsep⟩
      intro l' hl'
      rcases List.mem_cons.mp hl' with rfl | hl''
      · exact eq_false_of_ne_true hc
      · exact hnb l' hl''

/-- The facts packed into `blockOk`. -/
lemma blockOk_spec (b : List String) (h : blockOk b = true) :
    b ≠ [] ∧ (∀ l ∈ b, strictFieldLine l = true ∨ contLine l = true) ∧
    namesDistinctCI (fieldNames b) = true ∧
    (∀ l, b.head? = some l → startsSpaceTab l = false) ∧
    (∀ l ∈ b, isBlank l = false) := by
  cases b with
  | nil => exact Bool.noConfusion h
  | cons l ls =>
    simp only [blockOk, Bool.and_eq_true] at h
    obtain ⟨⟨hstrict, hlinesOk⟩, hdist⟩ := h
    have hlines := blockLinesOk_all (l :: ls) hlinesOk
    refine ⟨by simp, hlines, hdist, ?_, ?_⟩
    · intro l' hl'
      have : l = l' := by simpa using hl'
      subst this
      exact strictFieldLine_not_spacetab l hstrict
    · intro l' hl'
      rcases hlines l' hl' with h' | h'
      · exact strictFieldLine_not_blank l' h'
      · unfold contLine at h'
        have := (Bool.and_eq_true .. ▸ h').2
        cases hb : isBlank l' with
        | false => rfl
        | true => rw [hb] at this; exact Bool.noConfusion this

/-- A well-formed block parses and dumps back to itself. -/
lemma dump_parse_block (b : List String) (hok : blockOk b = true) :
    dumpPar (parseParagraph b) = b := by
  obtain ⟨hne, hlines, hdist, hhead, _⟩ := blockOk_spec b hok
  unfold parseParagraph
  rw [parsePara_fold_dump b [] hlines (fun n _ f hf => absurd hf (List.not_mem_nil f))
    hdist (fun _ => hhead)]
  rfl

/-- C9: serializing the parse of a well-formed two-paragraph control
document — the dumps of the two paragraphs joined by one blank line, as
the patch stage writes them back — reproduces the document exactly,
line by line and byte by byte. -/
theorem c9_round_trip (x : List String) (h : wellFormed x = true) :
    ∃ p0 p1, (iter_paragraphs x).map parseParagraph = [p0, p1] ∧
      dumpPar p0 ++ "" :: dumpPar p1 = x ∧
      docBytes (dumpPar p0 ++ "" :: dumpPar p1) = docBytes x := by
  unfold wellFormed at h
  cases hb : breakAtBlank x with
  | none => rw [hb] at h; exact Bool.noConfusion h
  | some tr =>
    obtain ⟨b0, sep, b1⟩ := tr
    rw [hb] at h
    simp only [Bool.and_eq_true] at h
    obtain ⟨⟨⟨⟨hsep, hok0⟩, hne1⟩, hnb1⟩, hok1⟩ := h
    have hsep' : sep = "" := beq_iff_eq.mp hsep
    subst hsep'
    obtain ⟨hx, hnb0, _⟩ := breakAtBlank_spec x b0 "" b1 hb
    subst hx
    have h0ne : b0 ≠ [] := (blockOk_spec b0 hok0).1
    have h1ne : b1 ≠ [] := by
      intro hnil
      rw [hnil] at hne1
      exact Bool.noConfusion hne1
    have hnb1' : ∀ l ∈ b1, isBlank l = false := by
      intro l hl
      have := List.all_eq_true.mp hnb1 l hl
      cases hbl : isBlank l with
      | false => rfl
      | true => rw [hbl] at this; exact Bool.noConfusion this
    rw [iter_paragraphs_two b0 b1 h0ne hnb0 h1ne hnb1']
    refine ⟨parseParagraph b0, parseParagraph b1, rfl, ?_, ?_⟩
    · rw [dump_parse_block b0 hok0, dump_parse_block b1 hok1]
    · rw [dump_parse_block b0 hok0, dump_parse_block b1 hok1]

/-- C9 witness: the round trip on the concrete document `content0`. -/
theorem c9_witness :
    wellFormed content0 = true ∧
    (∃ p0 p1, (iter_paragraphs content0).map parseParagraph = [p0, p1] ∧
      dumpPar p0 ++ "" :: dumpPar p1 = content0 ∧
      docBytes (dumpPar p0 ++ "" :: dumpPar p1) = docBytes content0) :=
  ⟨by decide, c9_round_trip content0 (by decide)⟩

end Py2deb
